import Mathlib

/-!
Verification of the consumables-ordering application (React/TypeScript) against its
specification. The development shallowly embeds the logic of the source files:

- src/utils/dateUtils.ts           (getWeekInfo)
- src/components/AdminDashboard.tsx (aggregateLogs, handleDownload)
- src/App.tsx and the in-memory App variant (handleRequestSubmit,
  handleUpdateLogQuantity, handleAddItem, handleFileChange row parsing)
- src/components/RequestForm.tsx   (handleSubmit guard)

Numbers are modelled by Int (the application only performs addition and
multiplication on them, plus one division that is exact under the stated
invariants), timestamps by an abstract Int, and JavaScript Date values by a day
number (days since the Unix epoch, proleptic Gregorian calendar, no DST, matching
the calendar arithmetic of ECMA-262) together with a millisecond-of-day field.
JavaScript string falsiness (empty string) is modelled explicitly where the code
relies on it.
-/

/-! ## Calendar arithmetic

Conversion between epoch day numbers and civil dates (year, month 1..12, day),
standard era-based algorithm over the proleptic Gregorian calendar. This models
what the JavaScript Date methods getFullYear, getMonth, getDate, getDay and the
Date constructor compute for local dates, with day 0 = 1970-01-01 (a Thursday).
-/

def civilFromDays (z0 : Int) : Int × Int × Int :=
  let z := z0 + 719468
  let era := z / 146097
  let doe := z % 146097
  let yoe := (doe - doe / 1460 + doe / 36524 - doe / 146096) / 365
  let y := yoe + era * 400
  let doy := doe - (365 * yoe + yoe / 4 - yoe / 100)
  let mp := (5 * doy + 2) / 153
  let d := doy - (153 * mp + 2) / 5 + 1
  let m := mp + (if mp < 10 then 3 else -9)
  (y + (if m ≤ 2 then 1 else 0), m, d)

def daysFromCivil (y0 m d : Int) : Int :=
  let y := y0 - (if m ≤ 2 then 1 else 0)
  let era := y / 400
  let yoe := y - era * 400
  let mp := m + (if 2 < m then -3 else 9)
  let doy := (153 * mp + 2) / 5 + d - 1
  let doe := yoe * 365 + yoe / 4 - yoe / 100 + doy
  era * 146097 + doe - 719468

/-- Day of week of an epoch day number, 0 = Sunday .. 6 = Saturday, as returned
by the JavaScript getDay method (day 0, 1970-01-01, was a Thursday, hence 4). -/
def dow (d : Int) : Int := (d + 4) % 7

/-- Days from the start of an era to the start of era-year y (auxiliary). -/
def dby (y : Int) : Int := 365 * y + y / 4 - y / 100

/-- Leap-corrected day count used to locate the era-year of a day (auxiliary). -/
def Fc (n : Int) : Int := n - n / 1460 + n / 36524 - n / 146096

/-- Exclusive upper bound of era-year y inside an era (auxiliary). -/
def upperB (y : Int) : Int := if y = 399 then 146097 else dby (y + 1)

set_option maxRecDepth 4000 in
theorem endpointFacts : ∀ y : Nat, y < 400 →
    365 * (y : Int) ≤ Fc (dby y) ∧ Fc (upperB y - 1) ≤ 365 * y + 364 ∧
    upperB y ≤ dby y + 366 ∧ dby y + 1 ≤ upperB y ∧ upperB y ≤ 146097 := by decide

theorem Fc_mono : ∀ b : Int, 0 ≤ b → ∀ a : Int, 0 ≤ a → a ≤ b → b ≤ 146096 → Fc a ≤ Fc b := by
  refine Int.le_induction ?_ ?_
  · intro a ha hab _
    have h : a = 0 := by omega
    rw [h]
  · intro n hn ih a ha hab hub
    rcases lt_or_eq_of_le hab with h | h
    · refine le_trans (ih a ha (by omega) (by omega)) ?_
      unfold Fc
      omega
    · rw [h]

theorem exists_year : ∀ n : Int, 0 ≤ n → n ≤ 146096 →
    ∃ y : Int, 0 ≤ y ∧ y ≤ 399 ∧ dby y ≤ n ∧ n < upperB y := by
  refine Int.le_induction ?_ ?_
  · intro _
    refine ⟨0, by norm_num, by norm_num, by norm_num [dby], by norm_num [upperB, dby]⟩
  · intro n hn ih hub
    obtain ⟨y, hy0, hy399, hylo, hyhi⟩ := ih (by omega)
    by_cases hc : n + 1 < upperB y
    · exact ⟨y, hy0, hy399, by omega, hc⟩
    · have hyn : y.toNat < 400 := by omega
      have he := endpointFacts y.toNat hyn
      have hcast : (y.toNat : Int) = y := by omega
      rw [hcast] at he
      obtain ⟨-, -, he3, he4, he5⟩ := he
      have hy399' : y ≠ 399 := by
        intro h
        have hup : upperB y = 146097 := by simp [upperB, h]
        omega
      have hup : upperB y = dby (y + 1) := by simp [upperB, hy399']
      have hy1 : y + 1 ≤ 399 := by
        by_contra hgt
        have hy400 : y + 1 = 400 := by omega
        have hd : dby (y + 1) = 146096 := by rw [hy400]; norm_num [dby]
        omega
      have hyn2 : (y + 1).toNat < 400 := by omega
      have he2 := endpointFacts (y + 1).toNat hyn2
      have hcast2 : ((y + 1).toNat : Int) = y + 1 := by omega
      rw [hcast2] at he2
      obtain ⟨-, -, -, hf4, -⟩ := he2
      exact ⟨y + 1, by omega, hy1, by omega, by omega⟩

theorem yoe_bounds (doe : Int) (h0 : 0 ≤ doe) (h1 : doe ≤ 146096) :
    0 ≤ Fc doe / 365 ∧ Fc doe / 365 ≤ 399 ∧
    dby (Fc doe / 365) ≤ doe ∧ doe ≤ dby (Fc doe / 365) + 365 := by
  obtain ⟨y, hy0, hy399, hylo, hyhi⟩ := exists_year doe h0 h1
  have hyn : y.toNat < 400 := by omega
  have he := endpointFacts y.toNat hyn
  have hcast : (y.toNat : Int) = y := by omega
  rw [hcast] at he
  obtain ⟨he1, he2, he3, he4, he5⟩ := he
  have hdby0 : 0 ≤ dby y := by unfold dby; omega
  have hm1 : Fc (dby y) ≤ Fc doe := Fc_mono doe h0 (dby y) hdby0 hylo h1
  have hm2 : Fc doe ≤ Fc (upperB y - 1) :=
    Fc_mono (upperB y - 1) (by omega) doe h0 (by omega) (by omega)
  have hyeq : Fc doe / 365 = y := by omega
  rw [hyeq]
  exact ⟨hy0, hy399, hylo, by omega⟩

theorem reconstructDay (era doe yoe : Int) (hy0 : 0 ≤ yoe) (hy399 : yoe ≤ 399)
    (hb1 : 365 * yoe + yoe / 4 - yoe / 100 ≤ doe)
    (hb2 : doe ≤ 365 * yoe + yoe / 4 - yoe / 100 + 365) :
    daysFromCivil
      (yoe + era * 400 +
        (if ((5 * (doe - (365 * yoe + yoe / 4 - yoe / 100)) + 2) / 153 +
            (if (5 * (doe - (365 * yoe + yoe / 4 - yoe / 100)) + 2) / 153 < 10 then 3 else -9)) ≤ 2
          then 1 else 0))
      ((5 * (doe - (365 * yoe + yoe / 4 - yoe / 100)) + 2) / 153 +
        (if (5 * (doe - (365 * yoe + yoe / 4 - yoe / 100)) + 2) / 153 < 10 then 3 else -9))
      ((doe - (365 * yoe + yoe / 4 - yoe / 100)) -
        (153 * ((5 * (doe - (365 * yoe + yoe / 4 - yoe / 100)) + 2) / 153) + 2) / 5 + 1) =
      era * 146097 + doe - 719468 := by
  have e1 : (yoe + era * 400 + 1 - 1) / 400 = era := by omega
  have e2 : (yoe + era * 400 + 1 - 1 - (yoe + era * 400 + 1 - 1) / 400 * 400) / 4 = yoe / 4 := by
    omega
  have e3 : (yoe + era * 400 + 1 - 1 - (yoe + era * 400 + 1 - 1) / 400 * 400) / 100 = yoe / 100 := by
    omega
  have e4 : (yoe + era * 400 + 0 - 0) / 400 = era := by omega
  have e5 : (yoe + era * 400 + 0 - 0 - (yoe + era * 400 + 0 - 0) / 400 * 400) / 4 = yoe / 4 := by
    omega
  have e6 : (yoe + era * 400 + 0 - 0 - (yoe + era * 400 + 0 - 0) / 400 * 400) / 100 = yoe / 100 := by
    omega
  have e7 : (153 * ((5 * (doe - (365 * yoe + yoe / 4 - yoe / 100)) + 2) / 153 + 3 + -3) + 2) / 5 =
      (153 * ((5 * (doe - (365 * yoe + yoe / 4 - yoe / 100)) + 2) / 153) + 2) / 5 := by omega
  have e8 : (153 * ((5 * (doe - (365 * yoe + yoe / 4 - yoe / 100)) + 2) / 153 + -9 + 9) + 2) / 5 =
      (153 * ((5 * (doe - (365 * yoe + yoe / 4 - yoe / 100)) + 2) / 153) + 2) / 5 := by omega
  unfold daysFromCivil
  simp only []
  split_ifs <;> omega

/-- Left inverse: converting a day number to a civil date and back is the identity. -/
theorem daysFromCivil_civilFromDays (z : Int) :
    daysFromCivil (civilFromDays z).1 (civilFromDays z).2.1 (civilFromDays z).2.2 = z := by
  have h0 : 0 ≤ (z + 719468) % 146097 := Int.emod_nonneg _ (by norm_num)
  have h1 : (z + 719468) % 146097 < 146097 := Int.emod_lt_of_pos _ (by norm_num)
  have hyb := yoe_bounds ((z + 719468) % 146097) h0 (by omega)
  unfold Fc dby at hyb
  unfold civilFromDays
  simp only []
  obtain ⟨yoe, hyoe⟩ : ∃ y : Int, ((z + 719468) % 146097 - (z + 719468) % 146097 / 1460 +
      (z + 719468) % 146097 / 36524 - (z + 719468) % 146097 / 146096) / 365 = y := ⟨_, rfl⟩
  simp only [hyoe] at hyb ⊢
  clear hyoe
  obtain ⟨hy0, hy399, hb1, hb2⟩ := hyb
  have key := reconstructDay ((z + 719468) / 146097) ((z + 719468) % 146097) yoe hy0 hy399 hb1 hb2
  omega

/-- Moving the day-of-month by a given amount moves the day number by the same
amount (daysFromCivil is affine in its day argument). -/
theorem daysFromCivil_day_shift (y m d : Int) :
    daysFromCivil y m d = daysFromCivil y m 1 + (d - 1) := by
  unfold daysFromCivil
  split_ifs <;> ring

/-! ## getWeekInfo, from src/utils/dateUtils.ts

A DateTime models a JavaScript Date as an epoch day number plus milliseconds
within the day. The functions setHours(0,0,0,0) and setHours(23,59,59,999) of
the source become the msOfDay values 0 and 86399999.
-/

structure DateTime where
  day : Int
  msOfDay : Int
deriving DecidableEq, Repr

structure WeekInfo where
  startOfWeek : DateTime
  endOfWeek : DateTime
  month : Int
  weekNumber : Int
deriving DecidableEq, Repr

/-- Model of getWeekInfo from src/utils/dateUtils.ts. The source zeroes the time
of day, computes diffToMonday from getDay, shifts to the Monday, takes the
following Sunday at end of day, and computes the week number within the month of
that Monday. The month field is the one-based month (getMonth() + 1). -/
def getWeekInfo (dt : DateTime) : WeekInfo :=
  let d := dt.day
  let dayOfWeek := dow d
  let diffToMonday := if dayOfWeek = 0 then -6 else 1 - dayOfWeek
  let s := d + diffToMonday
  let yc := civilFromDays s
  let startOfMonth := daysFromCivil yc.1 yc.2.1 1
  let firstDayOfMonth := dow startOfMonth
  let daysBeforeFirstMonday := (firstDayOfMonth + 6) % 7
  let weekNumber := (yc.2.2 + daysBeforeFirstMonday - 1) / 7 + 1
  { startOfWeek := ⟨s, 0⟩
    endOfWeek := ⟨s + 6, 86399999⟩
    month := yc.2.1
    weekNumber := weekNumber }

/-- Day number of the first day of the month containing day d. -/
def monthFirstDay (d : Int) : Int := daysFromCivil (civilFromDays d).1 (civilFromDays d).2.1 1

/-- Week number characterisation: the number computed by the source equals one
plus the number of whole weeks between the Monday of the week containing the
first of the month and the given Monday, so the week containing the first of
the month is week 1 whether it is partial or full. -/
theorem weekNumber_eq (s : Int) :
    ((civilFromDays s).2.2 + (dow (monthFirstDay s) + 6) % 7 - 1) / 7 + 1 =
    (s - (monthFirstDay s - (dow (monthFirstDay s) + 6) % 7)) / 7 + 1 := by
  have hrt := daysFromCivil_civilFromDays s
  have hsh := daysFromCivil_day_shift (civilFromDays s).1 (civilFromDays s).2.1 (civilFromDays s).2.2
  unfold monthFirstDay
  omega

/-- C3: for every reference date, getWeekInfo returns startOfWeek equal to the
Monday of the Monday-started week containing that date with the time truncated
to the start of the day, endOfWeek equal to the following Sunday at
23:59:59.999, and a weekNumber computed within the month of that Monday such
that the week containing the first of the month counts as week 1 (also when the
first is not a Monday and that week is partial): weekNumber is one plus the
number of whole weeks from the Monday of the week containing the first of the
month to the startOfWeek Monday. -/
theorem c3_getWeekInfo (dt : DateTime) :
    dow (getWeekInfo dt).startOfWeek.day = 1 ∧
    (getWeekInfo dt).startOfWeek.msOfDay = 0 ∧
    (getWeekInfo dt).startOfWeek.day ≤ dt.day ∧
    dt.day < (getWeekInfo dt).startOfWeek.day + 7 ∧
    (getWeekInfo dt).endOfWeek.day = (getWeekInfo dt).startOfWeek.day + 6 ∧
    (getWeekInfo dt).endOfWeek.msOfDay = 86399999 ∧
    (getWeekInfo dt).weekNumber =
      ((getWeekInfo dt).startOfWeek.day -
        (monthFirstDay (getWeekInfo dt).startOfWeek.day -
          (dow (monthFirstDay (getWeekInfo dt).startOfWeek.day) + 6) % 7)) / 7 + 1 := by
  have hw := weekNumber_eq (dt.day + (if dow dt.day = 0 then -6 else 1 - dow dt.day))
  unfold monthFirstDay at hw
  unfold getWeekInfo monthFirstDay
  dsimp only
  refine ⟨?_, rfl, ?_, ?_, rfl, rfl, hw⟩
  · unfold dow
    split_ifs <;> omega
  · unfold dow
    split_ifs <;> omega
  · unfold dow
    split_ifs <;> omega

/-! ## Data model, from src/types.ts and the request_logs schema

The RequestLog shape follows the fields used by src/components/AdminDashboard.tsx
(snake_case in the source: item_id, item_name, total_cost, equipment_code,
desired_delivery_date), written here in the camelCase of src/types.ts. Optional
fields become Option String; an empty string is falsy in JavaScript, which the
model reproduces wherever the source tests truthiness.
-/

structure ConsumableItem where
  id : String
  supplier : String
  name : String
  specification : String
  unit : String
  price : Int
deriving DecidableEq, Repr

structure RequestLog where
  id : String
  requesterId : String
  line : String
  equipmentCode : Option String
  itemId : String
  itemName : String
  quantity : Int
  totalCost : Int
  timestamp : Int
  desiredDeliveryDate : Option String
deriving DecidableEq, Repr

/-- Aggregation row. The source objects requestsByLine ({line, quantity}) and
requestsByEquipment ({code, quantity}) are modelled as pairs of a key and a
quantity. -/
structure AggregatedItem where
  item : ConsumableItem
  desiredDeliveryDate : Option String
  totalQuantity : Int
  totalCost : Int
  requestsByLine : List (String × Int)
  requestsByEquipment : List (String × Int)
deriving DecidableEq, Repr

/-! ## Aggregation engine, from aggregateLogs in src/components/AdminDashboard.tsx -/

/-- Catalog lookup: masterItems.find(i => i.id === log.item_id). -/
def findItem (items : List ConsumableItem) (i : String) : Option ConsumableItem :=
  items.find? (fun it => it.id == i)

/-- The string log.desired_delivery_date || "none" used in the group key; an
empty string is falsy in JavaScript and also maps to "none". -/
def dateOrNone (d : Option String) : String :=
  match d with
  | none => "none"
  | some s => if s = "" then "none" else s

/-- Group key of the source: itemId concatenated with an underscore and the
delivery date or "none". -/
def strKey (l : RequestLog) : String := l.itemId ++ "_" ++ dateOrNone l.desiredDeliveryDate

/-- Truthiness of log.equipment_code: present and not the empty string. -/
def eqCodeTruthy (l : RequestLog) : Option String :=
  match l.equipmentCode with
  | none => none
  | some c => if c = "" then none else some c

/-- In-place upsert on a breakdown list: if the key is present its quantity is
increased, otherwise the pair is appended at the end (the find-then-push pattern
of the source). -/
def addQty (acc : List (String × Int)) (k : String) (q : Int) : List (String × Int) :=
  match acc with
  | [] => [(k, q)]
  | (k0, q0) :: rest => if k0 = k then (k0, q0 + q) :: rest else (k0, q0) :: addQty rest k q

/-- Accumulating one log into an existing aggregation entry: the block of the
source after the entry has been obtained or created. -/
def addLog (e : AggregatedItem) (l : RequestLog) : AggregatedItem :=
  { e with
    totalQuantity := e.totalQuantity + l.quantity
    totalCost := e.totalCost + l.totalCost
    requestsByLine := addQty e.requestsByLine l.line l.quantity
    requestsByEquipment :=
      match eqCodeTruthy l with
      | none => e.requestsByEquipment
      | some c => addQty e.requestsByEquipment c l.quantity }

/-- Fresh entry created when a key is first seen and the item resolves: zero
totals, the resolved item, and the date of the creating log. -/
def newEntry (it : ConsumableItem) (l : RequestLog) : AggregatedItem :=
  { item := it
    desiredDeliveryDate := l.desiredDeliveryDate
    totalQuantity := 0
    totalCost := 0
    requestsByLine := []
    requestsByEquipment := [] }

/-- One step of the forEach loop of aggregateLogs over the insertion-ordered
map, modelled as an association list: an existing entry for the key is updated
in place; a missing entry is created at the end when the item resolves against
the catalog and the log is skipped otherwise. -/
def insertLog (items : List ConsumableItem) :
    List (String × AggregatedItem) → RequestLog → List (String × AggregatedItem)
  | [], l =>
    match findItem items l.itemId with
    | some it => [(strKey l, addLog (newEntry it l) l)]
    | none => []
  | (k, e) :: rest, l =>
    if k = strKey l then (k, addLog e l) :: rest
    else (k, e) :: insertLog items rest l

/-- The grouping phase of aggregateLogs: the JavaScript Map in insertion order. -/
def buildMap (logs : List RequestLog) (items : List ConsumableItem) :
    List (String × AggregatedItem) :=
  logs.foldl (insertLog items) []

/-- Truthiness of a desired delivery date as tested by the sort comparator. -/
def dateTruthy (d : Option String) : Bool :=
  match d with
  | none => false
  | some s => !(s == "")

/-- The sort comparator of aggregateLogs. The locale-aware string comparison
localeCompare is kept abstract as the parameter cmp, used both for item names
and for delivery dates exactly as in the source. -/
def cmpRows (cmp : String → String → Ordering) (a b : AggregatedItem) : Ordering :=
  match cmp a.item.name b.item.name with
  | Ordering.lt => Ordering.lt
  | Ordering.gt => Ordering.gt
  | Ordering.eq =>
    if dateTruthy a.desiredDeliveryDate then
      if dateTruthy b.desiredDeliveryDate then
        cmp (a.desiredDeliveryDate.getD "") (b.desiredDeliveryDate.getD "")
      else Ordering.lt
    else if dateTruthy b.desiredDeliveryDate then Ordering.gt
    else Ordering.eq

/-- Boolean order derived from the comparator, as used by a comparison sort. -/
def rowLe (cmp : String → String → Ordering) (a b : AggregatedItem) : Bool :=
  match cmpRows cmp a b with
  | Ordering.gt => false
  | _ => true

/-- Model of aggregateLogs: group the logs in insertion order, take the map
values, and sort them with the comparator (a stable comparison sort, as
Array.prototype.sort is). -/
def aggregateLogs (cmp : String → String → Ordering) (logs : List RequestLog)
    (items : List ConsumableItem) : List AggregatedItem :=
  ((buildMap logs items).map Prod.snd).mergeSort (rowLe cmp)

/-! ## Characterisation devices for the grouping phase -/

/-- Whether the itemId of a log resolves against the catalog. -/
def resolvable (items : List ConsumableItem) (l : RequestLog) : Bool :=
  (findItem items l.itemId).isSome

/-- The logs that feed the map entry of key k: the logs with that key, minus
the leading ones whose item does not resolve (those were skipped before the
entry existed; once the entry exists every log with the key accumulates). -/
def groupOf (items : List ConsumableItem) (logs : List RequestLog) (k : String) :
    List RequestLog :=
  (logs.filter (fun l => strKey l == k)).dropWhile (fun l => !(resolvable items l))

/-- The entry a nonempty group produces: the item resolved from the head log,
the date of the head log, and all logs of the group accumulated. -/
def mkEntry (items : List ConsumableItem) : List RequestLog → Option AggregatedItem
  | [] => none
  | h :: t =>
    match findItem items h.itemId with
    | some it => some (t.foldl addLog (addLog (newEntry it h) h))
    | none => none

/-- Duplicate removal keeping the first occurrence of each element. -/
def dedupFirst : List String → List String
  | [] => []
  | a :: l => a :: dedupFirst (l.filter (fun b => b ≠ a))
termination_by l => l.length
decreasing_by
  simp only [List.length_cons]
  exact Nat.lt_succ_of_le (List.length_filter_le _ _)

/-- Total quantity attributed to key k in a list of key-quantity pairs. -/
def sumQtyBy (ps : List (String × Int)) (k : String) : Int :=
  ((ps.filter (fun p => p.1 == k)).map Prod.snd).sum

/-- Reference form of a breakdown list: keys in order of first encounter, each
with the summed quantity. -/
def breakdownSpec (ps : List (String × Int)) : List (String × Int) :=
  (dedupFirst (ps.map Prod.fst)).map (fun k => (k, sumQtyBy ps k))

/-- Line-quantity pairs of a group of logs. -/
def linePairs (g : List RequestLog) : List (String × Int) :=
  g.map (fun l => (l.line, l.quantity))

/-- Equipment-quantity pairs of a group of logs; logs without a truthy
equipment code contribute nothing. -/
def eqPairs (g : List RequestLog) : List (String × Int) :=
  g.filterMap (fun l => (eqCodeTruthy l).map (fun c => (c, l.quantity)))

/-- Composite key named by the specification: the pair of itemId and the
delivery date or "none". -/
def pairKey (l : RequestLog) : String × String :=
  (l.itemId, dateOrNone l.desiredDeliveryDate)

/-- Pair of item id and date under which an aggregation row appears. -/
def rowPair (e : AggregatedItem) : String × String :=
  (e.item.id, dateOrNone e.desiredDeliveryDate)

theorem mem_dedupFirst : ∀ (l : List String) (x : String), x ∈ dedupFirst l ↔ x ∈ l := by
  intro l
  induction l using dedupFirst.induct with
  | case1 => intro x; simp [dedupFirst]
  | case2 a l ih =>
    intro x
    rw [dedupFirst]
    simp only [List.mem_cons, ih, List.mem_filter, decide_eq_true_eq]
    constructor
    · rintro (h | ⟨h, -⟩)
      · exact Or.inl h
      · exact Or.inr h
    · rintro (h | h)
      · exact Or.inl h
      · by_cases hx : x = a
        · exact Or.inl hx
        · exact Or.inr ⟨h, hx⟩

theorem nodup_dedupFirst : ∀ l : List String, (dedupFirst l).Nodup := by
  intro l
  induction l using dedupFirst.induct with
  | case1 => simp [dedupFirst]
  | case2 a l ih =>
    rw [dedupFirst]
    refine List.nodup_cons.2 ⟨?_, ih⟩
    rw [mem_dedupFirst]
    simp

theorem dedupFirst_append (l : List String) (a : String) :
    dedupFirst (l ++ [a]) = if a ∈ l then dedupFirst l else dedupFirst l ++ [a] := by
  induction l using dedupFirst.induct with
  | case1 => simp [dedupFirst]
  | case2 x l ih =>
    rw [List.cons_append, dedupFirst, List.filter_append]
    by_cases hax : a = x
    · subst hax
      simp only [List.filter_cons, List.filter_nil, decide_eq_true_eq]
      rw [if_neg (by simp), List.append_nil, if_pos (by simp)]
      rw [dedupFirst]
    · simp only [List.filter_cons, List.filter_nil, decide_eq_true_eq]
      rw [if_pos hax, ih]
      have hmem : a ∈ l.filter (fun b => decide (b ≠ x)) ↔ a ∈ l := by
        simp [List.mem_filter, hax]
      by_cases hal : a ∈ l
      · rw [if_pos (hmem.2 hal), if_pos (by simp [hal])]
        rw [dedupFirst]
      · rw [if_neg (fun h => hal (hmem.1 h)), if_neg (by simp [hal, hax])]
        rw [dedupFirst]
        simp

theorem sumQtyBy_zero_of_not_mem (ps : List (String × Int)) (k : String)
    (h : k ∉ ps.map Prod.fst) : sumQtyBy ps k = 0 := by
  unfold sumQtyBy
  have : ps.filter (fun p => p.1 == k) = [] := by
    rw [List.filter_eq_nil_iff]
    intro p hp
    simp only [beq_iff_eq]
    intro hpk
    exact h (List.mem_map.2 ⟨p, hp, hpk⟩)
  rw [this]
  rfl

theorem sumQtyBy_append (ps : List (String × Int)) (k k0 : String) (q : Int) :
    sumQtyBy (ps ++ [(k0, q)]) k = sumQtyBy ps k + (if k0 = k then q else 0) := by
  unfold sumQtyBy
  rw [List.filter_append, List.map_append, List.sum_append]
  congr 1
  simp only [List.filter_cons, List.filter_nil]
  by_cases h : k0 = k
  · rw [if_pos (by simpa using h)]
    simp [h]
  · rw [if_neg (by simpa using h)]
    simp [h]

theorem addQty_map_mem (xs : List String) (g : String → Int) (k : String) (q : Int)
    (hnd : xs.Nodup) (hk : k ∈ xs) :
    addQty (xs.map (fun x => (x, g x))) k q =
      xs.map (fun x => (x, if x = k then g x + q else g x)) := by
  induction xs with
  | nil => cases hk
  | cons x xs ih =>
    rw [List.map_cons, addQty, List.map_cons]
    by_cases hx : x = k
    · rw [if_pos hx, if_pos hx]
      congr 1
      have hknot : k ∉ xs := by
        rw [← hx]
        exact (List.nodup_cons.1 hnd).1
      refine List.map_congr_left ?_
      intro y hy
      rw [if_neg (by rintro rfl; exact hknot hy)]
    · rw [if_neg hx, if_neg hx]
      congr 1
      exact ih (List.nodup_cons.1 hnd).2 ((List.mem_cons.1 hk).resolve_left (fun h => hx h.symm))

theorem addQty_map_not_mem (xs : List String) (g : String → Int) (k : String) (q : Int)
    (hk : k ∉ xs) :
    addQty (xs.map (fun x => (x, g x))) k q = xs.map (fun x => (x, g x)) ++ [(k, q)] := by
  induction xs with
  | nil => rfl
  | cons x xs ih =>
    rw [List.map_cons, addQty]
    rw [if_neg (by intro h; subst h; exact hk (List.mem_cons_self x xs))]
    rw [List.cons_append]
    congr 1
    exact ih (fun h => hk (List.mem_cons_of_mem x h))

theorem addQty_breakdownSpec (qs : List (String × Int)) (k : String) (q : Int) :
    addQty (breakdownSpec qs) k q = breakdownSpec (qs ++ [(k, q)]) := by
  unfold breakdownSpec
  rw [List.map_append]
  simp only [List.map_cons, List.map_nil]
  rw [dedupFirst_append]
  by_cases hk : k ∈ qs.map Prod.fst
  · rw [if_pos hk]
    rw [addQty_map_mem _ _ _ _ (nodup_dedupFirst _) ((mem_dedupFirst _ _).2 hk)]
    refine List.map_congr_left ?_
    intro x hx
    rw [sumQtyBy_append]
    by_cases hxk : x = k
    · rw [if_pos hxk, if_pos hxk.symm]
    · rw [if_neg hxk, if_neg (fun h => hxk h.symm), add_zero]
  · rw [if_neg hk]
    rw [addQty_map_not_mem _ _ _ _ (fun h => hk ((mem_dedupFirst _ _).1 h))]
    rw [List.map_append, List.map_cons, List.map_nil]
    congr 1
    · refine List.map_congr_left ?_
      intro x hx
      rw [sumQtyBy_append]
      have hxk : x ≠ k := fun h => hk (h ▸ (mem_dedupFirst _ _).1 hx)
      rw [if_neg (fun h => hxk h.symm), add_zero]
    · rw [sumQtyBy_append, sumQtyBy_zero_of_not_mem _ _ hk, if_pos rfl, zero_add]

theorem dedupFirst_nil : dedupFirst [] = [] := by rw [dedupFirst]

theorem breakdownSpec_nil : breakdownSpec [] = [] := by
  unfold breakdownSpec
  rw [List.map_nil, dedupFirst_nil, List.map_nil]

theorem foldl_addQty (ps : List (String × Int)) : ∀ qs : List (String × Int),
    ps.foldl (fun acc p => addQty acc p.1 p.2) (breakdownSpec qs) = breakdownSpec (qs ++ ps) := by
  induction ps with
  | nil => intro qs; rw [List.foldl_nil, List.append_nil]
  | cons p ps ih =>
    intro qs
    rw [List.foldl_cons, addQty_breakdownSpec]
    rw [ih (qs ++ [p])]
    rw [List.append_assoc]
    rfl

theorem breakdown_foldl (ps : List (String × Int)) :
    ps.foldl (fun acc p => addQty acc p.1 p.2) [] = breakdownSpec ps := by
  have h := foldl_addQty ps []
  rwa [breakdownSpec_nil, List.nil_append] at h

theorem foldl_addLog : ∀ (t : List RequestLog) (e0 : AggregatedItem),
    t.foldl addLog e0 =
      { item := e0.item
        desiredDeliveryDate := e0.desiredDeliveryDate
        totalQuantity := e0.totalQuantity + (t.map (fun l => l.quantity)).sum
        totalCost := e0.totalCost + (t.map (fun l => l.totalCost)).sum
        requestsByLine := (linePairs t).foldl (fun acc p => addQty acc p.1 p.2) e0.requestsByLine
        requestsByEquipment :=
          (eqPairs t).foldl (fun acc p => addQty acc p.1 p.2) e0.requestsByEquipment } := by
  intro t
  induction t with
  | nil =>
    intro e0
    simp [linePairs, eqPairs]
  | cons h t ih =>
    intro e0
    rw [List.foldl_cons, ih (addLog e0 h)]
    cases hc : eqCodeTruthy h with
    | none =>
      simp only [addLog, hc, linePairs, eqPairs, List.map_cons, List.filterMap_cons,
        Option.map_none', List.sum_cons, List.foldl_cons]
      congr 1 <;> ring
    | some c =>
      simp only [addLog, hc, linePairs, eqPairs, List.map_cons, List.filterMap_cons,
        Option.map_some', List.sum_cons, List.foldl_cons]
      congr 1 <;> ring

theorem mkEntry_spec (items : List ConsumableItem) (g : List RequestLog) (e : AggregatedItem)
    (h : mkEntry items g = some e) :
    (∃ h0 t, g = h0 :: t ∧ findItem items h0.itemId = some e.item ∧
      e.desiredDeliveryDate = h0.desiredDeliveryDate) ∧
    e.totalQuantity = (g.map (fun l => l.quantity)).sum ∧
    e.totalCost = (g.map (fun l => l.totalCost)).sum ∧
    e.requestsByLine = breakdownSpec (linePairs g) ∧
    e.requestsByEquipment = breakdownSpec (eqPairs g) := by
  cases g with
  | nil => cases h
  | cons h0 t =>
    rw [mkEntry] at h
    cases hf : findItem items h0.itemId with
    | none => rw [hf] at h; cases h
    | some it =>
      rw [hf] at h
      injection h with h
      subst h
      rw [foldl_addLog]
      refine ⟨⟨h0, t, rfl, by rw [hf]; rfl, rfl⟩, ?_, ?_, ?_, ?_⟩
      · simp [addLog, newEntry]
      · simp [addLog, newEntry]
      · rw [← breakdown_foldl]
        simp only [linePairs, List.map_cons, List.foldl_cons]
        simp [addLog, newEntry]
      · rw [← breakdown_foldl]
        cases hc : eqCodeTruthy h0 with
        | none =>
          simp only [eqPairs, List.filterMap_cons, hc, Option.map_none']
          simp [addLog, hc, newEntry]
        | some c =>
          simp only [eqPairs, List.filterMap_cons, hc, Option.map_some', List.foldl_cons]
          simp [addLog, hc, newEntry]

theorem insertLog_keys (items : List ConsumableItem) (l : RequestLog) :
    ∀ acc : List (String × AggregatedItem),
      (insertLog items acc l).map Prod.fst =
        if strKey l ∈ acc.map Prod.fst then acc.map Prod.fst
        else if resolvable items l then acc.map Prod.fst ++ [strKey l]
        else acc.map Prod.fst := by
  intro acc
  induction acc with
  | nil =>
    rw [insertLog]
    simp only [List.map_nil, List.not_mem_nil, if_false]
    unfold resolvable
    cases hf : findItem items l.itemId with
    | none => simp [hf]
    | some it => simp [hf]
  | cons ke rest ih =>
    obtain ⟨k0, e0⟩ := ke
    rw [insertLog]
    by_cases hk : k0 = strKey l
    · rw [if_pos hk]
      simp only [List.map_cons]
      rw [if_pos (by rw [hk]; exact List.mem_cons_self _ _)]
    · rw [if_neg hk]
      simp only [List.map_cons]
      rw [ih]
      have hmm : strKey l ∈ k0 :: rest.map Prod.fst ↔ strKey l ∈ rest.map Prod.fst := by
        simp only [List.mem_cons]
        constructor
        · rintro (h | h)
          · exact absurd h.symm hk
          · exact h
        · exact Or.inr
      by_cases hm : strKey l ∈ rest.map Prod.fst
      · rw [if_pos hm, if_pos (hmm.2 hm)]
      · rw [if_neg hm, if_neg (fun h => hm (hmm.1 h))]
        by_cases hr : resolvable items l
        · rw [if_pos hr, if_pos hr, List.cons_append]
        · rw [if_neg hr, if_neg hr]

theorem insertLog_mem (items : List ConsumableItem) (l : RequestLog) :
    ∀ acc : List (String × AggregatedItem), (acc.map Prod.fst).Nodup →
      ∀ k e, ((k, e) ∈ insertLog items acc l ↔
        (k ≠ strKey l ∧ (k, e) ∈ acc) ∨
        (k = strKey l ∧ ∃ e0, (k, e0) ∈ acc ∧ e = addLog e0 l) ∨
        (k = strKey l ∧ strKey l ∉ acc.map Prod.fst ∧ mkEntry items [l] = some e)) := by
  intro acc
  induction acc with
  | nil =>
    intro _ k e
    rw [insertLog, mkEntry]
    cases hf : findItem items l.itemId with
    | none =>
      simp
    | some it =>
      simp only [List.mem_singleton, Prod.mk.injEq, List.not_mem_nil, false_and, and_false,
        exists_false, or_false, false_or, List.map_nil, not_false_iff, true_and,
        Option.some.injEq, List.foldl_nil]
      constructor
      · rintro ⟨hk, he⟩
        exact ⟨hk, he.symm⟩
      · rintro ⟨hk, he⟩
        exact ⟨hk, he.symm⟩
  | cons ke rest ih =>
    intro hnd k e
    obtain ⟨k0, e0⟩ := ke
    simp only [List.map_cons, List.nodup_cons] at hnd
    obtain ⟨hk0nin, hndr⟩ := hnd
    rw [insertLog]
    simp only [List.map_cons]
    by_cases hk : k0 = strKey l
    · rw [if_pos hk]
      constructor
      · intro hmem
        rcases List.mem_cons.1 hmem with heq | hmem2
        · have hkk : k = k0 := congrArg Prod.fst heq
          have hee : e = addLog e0 l := congrArg Prod.snd heq
          refine Or.inr (Or.inl ⟨hkk.trans hk, e0, ?_, hee⟩)
          rw [hkk]
          exact List.mem_cons_self _ _
        · have hkne : k ≠ strKey l := by
            intro hkeq
            apply hk0nin
            rw [hk, ← hkeq]
            exact List.mem_map.2 ⟨(k, e), hmem2, rfl⟩
          exact Or.inl ⟨hkne, List.mem_cons_of_mem _ hmem2⟩
      · rintro (⟨hkne, hmem⟩ | ⟨hkeq, e1, hmem1, hee⟩ | ⟨hkeq, hnin, hmk⟩)
        · rcases List.mem_cons.1 hmem with heq | hmem2
          · exact absurd ((congrArg Prod.fst heq).trans hk) hkne
          · exact List.mem_cons_of_mem _ hmem2
        · rcases List.mem_cons.1 hmem1 with heq | hmem2
          · have hee0 : e1 = e0 := congrArg Prod.snd heq
            rw [hee, hee0]
            have hkk : k = k0 := hkeq.trans hk.symm
            rw [hkk]
            exact List.mem_cons_self _ _
          · exfalso
            apply hk0nin
            rw [hk, ← hkeq]
            exact List.mem_map.2 ⟨(k, e1), hmem2, rfl⟩
        · exact absurd (List.mem_cons.2 (Or.inl hk.symm)) hnin
    · rw [if_neg hk]
      constructor
      · intro hmem
        rcases List.mem_cons.1 hmem with heq | hmem2
        · have hkk : k = k0 := congrArg Prod.fst heq
          have hee : e = e0 := congrArg Prod.snd heq
          refine Or.inl ⟨?_, ?_⟩
          · rw [hkk]; exact hk
          · rw [hkk, hee]; exact List.mem_cons_self _ _
        · rcases (ih hndr k e).1 hmem2 with ⟨hkne, hmem3⟩ | ⟨hkeq, e1, hm1, hee⟩ | ⟨hkeq, hnin, hmk⟩
          · exact Or.inl ⟨hkne, List.mem_cons_of_mem _ hmem3⟩
          · exact Or.inr (Or.inl ⟨hkeq, e1, List.mem_cons_of_mem _ hm1, hee⟩)
          · refine Or.inr (Or.inr ⟨hkeq, ?_, hmk⟩)
            intro hin
            rcases List.mem_cons.1 hin with h | h
            · exact hk h.symm
            · exact hnin h
      · rintro (⟨hkne, hmem⟩ | ⟨hkeq, e1, hm1, hee⟩ | ⟨hkeq, hnin, hmk⟩)
        · rcases List.mem_cons.1 hmem with heq | hmem2
          · rw [heq]
            exact List.mem_cons_self _ _
          · exact List.mem_cons_of_mem _ ((ih hndr k e).2 (Or.inl ⟨hkne, hmem2⟩))
        · rcases List.mem_cons.1 hm1 with heq | hm2
          · have hkk : k = k0 := congrArg Prod.fst heq
            exact absurd (hkk.symm.trans hkeq) hk
          · exact List.mem_cons_of_mem _ ((ih hndr k e).2 (Or.inr (Or.inl ⟨hkeq, e1, hm2, hee⟩)))
        · have hnin2 : strKey l ∉ rest.map Prod.fst := fun h => hnin (List.mem_cons_of_mem _ h)
          exact List.mem_cons_of_mem _ ((ih hndr k e).2 (Or.inr (Or.inr ⟨hkeq, hnin2, hmk⟩)))

/-- Invariant of the grouping loop: after processing a prefix of the logs, the
map keys are the distinct keys of the resolvable processed logs in order of
first resolvable occurrence, and every entry is the accumulation of its group. -/
def InvMap (items : List ConsumableItem) (processed : List RequestLog)
    (acc : List (String × AggregatedItem)) : Prop :=
  acc.map Prod.fst = dedupFirst (((processed.filter (resolvable items))).map strKey) ∧
  ∀ k e, (k, e) ∈ acc → mkEntry items (groupOf items processed k) = some e

theorem groupOf_append_ne (items : List ConsumableItem) (logs : List RequestLog)
    (l : RequestLog) (k : String) (h : strKey l ≠ k) :
    groupOf items (logs ++ [l]) k = groupOf items logs k := by
  unfold groupOf
  rw [List.filter_append]
  have : [l].filter (fun x => strKey x == k) = [] := by
    simp only [List.filter_cons, List.filter_nil]
    rw [if_neg (by simpa using h)]
  rw [this, List.append_nil]

theorem groupOf_append_eq (items : List ConsumableItem) (logs : List RequestLog)
    (l : RequestLog) : groupOf items (logs ++ [l]) (strKey l) =
      if (groupOf items logs (strKey l)).isEmpty then
        (if resolvable items l then [l] else [])
      else groupOf items logs (strKey l) ++ [l] := by
  unfold groupOf
  rw [List.filter_append]
  have h1 : List.filter (fun x => strKey x == strKey l) [l] = [l] := by
    simp [List.filter_cons]
  rw [h1, List.dropWhile_append]
  by_cases he : (List.dropWhile (fun l => !resolvable items l)
      (List.filter (fun x => strKey x == strKey l) logs)).isEmpty
  · rw [if_pos he, if_pos he]
    simp only [List.dropWhile_cons, List.dropWhile_nil]
    by_cases hr : resolvable items l
    · rw [if_pos hr]
      simp [hr]
    · rw [if_neg hr]
      simp [hr]
  · rw [if_neg he, if_neg he]

theorem mkEntry_append (items : List ConsumableItem) (g : List RequestLog)
    (l : RequestLog) (e : AggregatedItem) (h : mkEntry items g = some e) :
    mkEntry items (g ++ [l]) = some (addLog e l) := by
  cases g with
  | nil => cases h
  | cons h0 t =>
    rw [mkEntry] at h
    rw [List.cons_append, mkEntry]
    cases hf : findItem items h0.itemId with
    | none => rw [hf] at h; cases h
    | some it =>
      rw [hf] at h
      injection h with h
      show some (List.foldl addLog (addLog (newEntry it h0) h0) (t ++ [l])) = some (addLog e l)
      rw [List.foldl_append, h]
      rfl

theorem mkEntry_singleton_resolvable (items : List ConsumableItem) (l : RequestLog)
    (e : AggregatedItem) (h : mkEntry items [l] = some e) : resolvable items l = true := by
  rw [mkEntry] at h
  unfold resolvable
  cases hf : findItem items l.itemId with
  | none => rw [hf] at h; cases h
  | some it => rfl

theorem Inv_step (items : List ConsumableItem) (processed : List RequestLog)
    (acc : List (String × AggregatedItem)) (l : RequestLog)
    (h : InvMap items processed acc) :
    InvMap items (processed ++ [l]) (insertLog items acc l) := by
  obtain ⟨hkeys, hent⟩ := h
  have hnd : (acc.map Prod.fst).Nodup := by
    rw [hkeys]
    exact nodup_dedupFirst _
  constructor
  · rw [insertLog_keys, hkeys, List.filter_append]
    cases hres : resolvable items l with
    | false =>
      have : [l].filter (resolvable items) = [] := by
        simp [List.filter_cons, hres]
      rw [this, List.append_nil]
      by_cases hm : strKey l ∈ dedupFirst ((processed.filter (resolvable items)).map strKey)
      · rw [if_pos hm]
      · rw [if_neg hm, if_neg (by simp)]
    | true =>
      have : [l].filter (resolvable items) = [l] := by
        simp [List.filter_cons, hres]
      rw [this, List.map_append, List.map_cons, List.map_nil, dedupFirst_append]
      by_cases hm : strKey l ∈ (processed.filter (resolvable items)).map strKey
      · rw [if_pos ((mem_dedupFirst _ _).2 hm), if_pos hm]
      · rw [if_neg (fun hh => hm ((mem_dedupFirst _ _).1 hh)), if_neg hm, if_pos rfl]
  · intro k e hmem
    rw [insertLog_mem items l acc hnd k e] at hmem
    rcases hmem with ⟨hkne, hmem⟩ | ⟨hkeq, e0, hmem0, hee⟩ | ⟨hkeq, hnin, hmk⟩
    · rw [groupOf_append_ne items processed l k (fun hh => hkne hh.symm)]
      exact hent k e hmem
    · subst hkeq
      have he0 := hent _ e0 hmem0
      rw [groupOf_append_eq]
      have hne : ¬(groupOf items processed (strKey l)).isEmpty := by
        cases hg : groupOf items processed (strKey l) with
        | nil => rw [hg] at he0; cases he0
        | cons a b => simp [hg]
      rw [if_neg hne, hee]
      exact mkEntry_append items _ l e0 he0
    · subst hkeq
      rw [hkeys] at hnin
      rw [mem_dedupFirst] at hnin
      have hgnil : groupOf items processed (strKey l) = [] := by
        unfold groupOf
        rw [List.dropWhile_eq_nil_iff]
        intro x hx
        have hxk : strKey x = strKey l := by
          have := List.of_mem_filter hx
          simpa using this
        have hxmem : x ∈ processed := List.mem_of_mem_filter hx
        simp only [Bool.not_eq_true']
        cases hr : resolvable items x with
        | false => rfl
        | true =>
          exfalso
          apply hnin
          rw [← hxk]
          exact List.mem_map.2 ⟨x, List.mem_filter.2 ⟨hxmem, hr⟩, rfl⟩
      rw [groupOf_append_eq, hgnil]
      simp [mkEntry_singleton_resolvable items l e hmk, hmk]

theorem buildMap_inv (items : List ConsumableItem) (logs : List RequestLog) :
    InvMap items logs (buildMap logs items) := by
  have H : ∀ (ls processed : List RequestLog) (acc : List (String × AggregatedItem)),
      InvMap items processed acc →
      InvMap items (processed ++ ls) (ls.foldl (insertLog items) acc) := by
    intro ls
    induction ls with
    | nil =>
      intro processed acc h
      rw [List.foldl_nil, List.append_nil]
      exact h
    | cons l ls ih =>
      intro processed acc h
      rw [List.foldl_cons]
      have h2 := ih (processed ++ [l]) _ (Inv_step items processed acc l h)
      rwa [List.append_assoc, List.singleton_append] at h2
  have hbase : InvMap items [] [] := by
    constructor
    · rw [List.map_nil, List.filter_nil, List.map_nil, dedupFirst_nil]
    · intro k e h
      cases h
  have h := H logs [] [] hbase
  rw [List.nil_append] at h
  exact h

theorem mem_aggregateLogs (cmp : String → String → Ordering) (logs : List RequestLog)
    (items : List ConsumableItem) (e : AggregatedItem) :
    e ∈ aggregateLogs cmp logs items ↔ ∃ k, (k, e) ∈ buildMap logs items := by
  unfold aggregateLogs
  rw [List.Perm.mem_iff (List.mergeSort_perm _ _)]
  constructor
  · intro h
    obtain ⟨⟨k, e2⟩, hm, he⟩ := List.mem_map.1 h
    cases he
    exact ⟨k, hm⟩
  · rintro ⟨k, hm⟩
    exact List.mem_map.2 ⟨(k, e), hm, rfl⟩

theorem head_dropWhile_false (p : α → Bool) :
    ∀ (l : List α) (h : α) (t : List α), l.dropWhile p = h :: t → p h = false := by
  intro l
  induction l with
  | nil => intro h t hh; cases hh
  | cons a l ih =>
    intro h t hh
    rw [List.dropWhile_cons] at hh
    by_cases hp : p a
    · rw [if_pos hp] at hh
      exact ih h t hh
    · rw [if_neg hp] at hh
      injection hh with h1 h2
      subst h1
      exact Bool.not_eq_true _ ▸ (by simpa using hp)

theorem entry_props (items : List ConsumableItem) (logs : List RequestLog)
    (k : String) (e : AggregatedItem) (h : (k, e) ∈ buildMap logs items) :
    ∃ h0, (∃ t, groupOf items logs k = h0 :: t) ∧ findItem items h0.itemId = some e.item ∧
      e.desiredDeliveryDate = h0.desiredDeliveryDate ∧ strKey h0 = k ∧ h0 ∈ logs ∧
      resolvable items h0 = true ∧ e.item.id = h0.itemId := by
  have hinv := (buildMap_inv items logs).2 k e h
  obtain ⟨⟨h0, t, hg, hfind, hdd⟩, -, -, -, -⟩ := mkEntry_spec items _ e hinv
  have hmemg : h0 ∈ groupOf items logs k := by
    rw [hg]
    exact List.mem_cons_self _ _
  have hmemf : h0 ∈ logs.filter (fun l => strKey l == k) :=
    (List.dropWhile_sublist _).subset hmemg
  have hkey : strKey h0 = k := by
    have := List.of_mem_filter hmemf
    simpa using this
  have hmeml : h0 ∈ logs := List.mem_of_mem_filter hmemf
  have hres : resolvable items h0 = true := by
    have hfalse := head_dropWhile_false _ _ _ _ hg
    unfold resolvable
    rw [Bool.not_eq_false'] at hfalse
    exact hfalse
  have hid : e.item.id = h0.itemId := by
    have := List.find?_some hfind
    simpa using this
  exact ⟨h0, ⟨t, hg⟩, hfind, hdd, hkey, hmeml, hres, hid⟩

theorem entry_key (items : List ConsumableItem) (logs : List RequestLog)
    (k : String) (e : AggregatedItem) (h : (k, e) ∈ buildMap logs items) :
    k = e.item.id ++ "_" ++ dateOrNone e.desiredDeliveryDate := by
  obtain ⟨h0, -, -, hdd, hkey, -, -, hid⟩ := entry_props items logs k e h
  rw [← hkey, hid, hdd]
  rfl

theorem eq_of_fst_eq_of_nodup_keys {β : Type} :
    ∀ (l : List (String × β)), (l.map Prod.fst).Nodup →
      ∀ x ∈ l, ∀ y ∈ l, x.1 = y.1 → x = y := by
  intro l
  induction l with
  | nil => intro _ x hx; cases hx
  | cons a l ih =>
    intro hnd x hx y hy hxy
    simp only [List.map_cons, List.nodup_cons] at hnd
    obtain ⟨hna, hndl⟩ := hnd
    rcases List.mem_cons.1 hx with hhx | hhx <;> rcases List.mem_cons.1 hy with hhy | hhy
    · rw [hhx, hhy]
    · exfalso
      apply hna
      have ha1 : a.1 = y.1 := by rw [← hhx]; exact hxy
      rw [ha1]
      exact List.mem_map.2 ⟨y, hhy, rfl⟩
    · exfalso
      apply hna
      have ha1 : a.1 = x.1 := by rw [← hhy]; exact hxy.symm
      rw [ha1]
      exact List.mem_map.2 ⟨x, hhx, rfl⟩
    · exact ih hndl x hhx y hhy hxy

theorem buildMap_keys_nodup (items : List ConsumableItem) (logs : List RequestLog) :
    ((buildMap logs items).map Prod.fst).Nodup := by
  rw [(buildMap_inv items logs).1]
  exact nodup_dedupFirst _

/-- C2 (amended): provided the string encodings of the composite keys are
collision-free over the given log list (which holds whenever delivery dates are
well-formed YYYY-MM-DD strings, since an item id containing an underscore can
otherwise collide with another id-date combination), aggregation produces
exactly one row per distinct composite key (itemId, desiredDeliveryDate or
"none") of the catalog-resolvable logs, every row carries an item found in the
catalog (no placeholder is synthesized, no error is raised: the function is
total), orphan groups are dropped entirely, and an empty log list yields an
empty row list. -/
theorem c2_grouping (cmp : String → String → Ordering) (logs : List RequestLog)
    (items : List ConsumableItem)
    (hcf : ∀ l1 ∈ logs, ∀ l2 ∈ logs, strKey l1 = strKey l2 → pairKey l1 = pairKey l2) :
    ((aggregateLogs cmp logs items).map rowPair).Perm
      (((logs.filter (resolvable items)).map pairKey).dedup) ∧
    (∀ r ∈ aggregateLogs cmp logs items, findItem items r.item.id = some r.item) ∧
    aggregateLogs cmp [] items = [] := by
  refine ⟨?_, ?_, ?_⟩
  · have hvalnd : (((buildMap logs items).map Prod.snd).map rowPair).Nodup := by
      rw [List.map_map]
      refine List.Nodup.map_on ?_ ?_
      · intro x hx y hy hxy
        obtain ⟨kx, ex⟩ := x
        obtain ⟨ky, ey⟩ := y
        refine eq_of_fst_eq_of_nodup_keys _ (buildMap_keys_nodup items logs) _ hx _ hy ?_
        have hkx := entry_key items logs kx ex hx
        have hky := entry_key items logs ky ey hy
        show kx = ky
        rw [hkx, hky]
        have h1 : rowPair ex = rowPair ey := hxy
        simp only [rowPair, Prod.mk.injEq] at h1
        rw [h1.1, h1.2]
      · exact List.Nodup.of_map _ (buildMap_keys_nodup items logs)
    have hperm : ((aggregateLogs cmp logs items).map rowPair).Perm
        (((buildMap logs items).map Prod.snd).map rowPair) :=
      (List.mergeSort_perm _ _).map rowPair
    have hrownd : ((aggregateLogs cmp logs items).map rowPair).Nodup :=
      hperm.nodup_iff.2 hvalnd
    rw [List.perm_ext_iff_of_nodup hrownd (List.nodup_dedup _)]
    intro p
    rw [List.mem_dedup]
    constructor
    · intro hp
      obtain ⟨r, hr, hpr⟩ := List.mem_map.1 hp
      obtain ⟨k, hk⟩ := (mem_aggregateLogs cmp logs items r).1 hr
      obtain ⟨h0, -, -, hdd, -, hmeml, hres, hid⟩ := entry_props items logs k r hk
      refine List.mem_map.2 ⟨h0, List.mem_filter.2 ⟨hmeml, hres⟩, ?_⟩
      rw [← hpr]
      unfold pairKey rowPair
      rw [hid, hdd]
    · intro hp
      obtain ⟨l, hlf, hpl⟩ := List.mem_map.1 hp
      have hlmem : l ∈ logs := List.mem_of_mem_filter hlf
      have hlres : resolvable items l = true := by simpa using List.of_mem_filter hlf
      have hkin : strKey l ∈ (buildMap logs items).map Prod.fst := by
        rw [(buildMap_inv items logs).1, mem_dedupFirst]
        exact List.mem_map.2 ⟨l, List.mem_filter.2 ⟨hlmem, hlres⟩, rfl⟩
      obtain ⟨⟨k, e⟩, hke, hkeq⟩ := List.mem_map.1 hkin
      have hke2 : (strKey l, e) ∈ buildMap logs items := by
        have : k = strKey l := hkeq
        rwa [this] at hke
      obtain ⟨h0, -, -, hdd, hkey, hmeml0, -, hid⟩ := entry_props items logs (strKey l) e hke2
      have hpk : pairKey l = pairKey h0 := hcf l hlmem h0 hmeml0 hkey.symm
      refine List.mem_map.2 ⟨e, (mem_aggregateLogs cmp logs items e).2 ⟨strKey l, hke2⟩, ?_⟩
      rw [← hpl, hpk]
      unfold pairKey rowPair
      rw [hid, hdd]
  · intro r hr
    obtain ⟨k, hk⟩ := (mem_aggregateLogs cmp logs items r).1 hr
    obtain ⟨h0, -, hfind, -, -, -, -, hid⟩ := entry_props items logs k r hk
    rw [hid]
    exact hfind
  · simp [aggregateLogs, buildMap, List.mergeSort_nil]

/-- Degenerate comparator used to instantiate the abstract locale comparison in
concrete examples. -/
def cmp0 : String → String → Ordering := fun _ _ => Ordering.eq

def exC2Item : ConsumableItem := ⟨"A", "Sup", "Part A", "spec", "EA", 100⟩

def exC2Log : RequestLog := ⟨"L1", "u", "Press1", none, "A", "Part A", 2, 200, 0, none⟩

theorem c2_grouping_witness :
    (((aggregateLogs cmp0 [exC2Log] [exC2Item]).map rowPair).Perm
      ((([exC2Log].filter (resolvable [exC2Item])).map pairKey).dedup)) ∧
    (∀ r ∈ aggregateLogs cmp0 [exC2Log] [exC2Item],
      findItem [exC2Item] r.item.id = some r.item) ∧
    aggregateLogs cmp0 [] [exC2Item] = [] :=
  c2_grouping cmp0 [exC2Log] [exC2Item] (by decide)

def exColItemA : ConsumableItem := ⟨"X", "s", "item x", "sp", "EA", 100⟩

def exColItemB : ConsumableItem := ⟨"X_2024-01-01", "s", "item xd", "sp", "EA", 200⟩

def exColLog1 : RequestLog := ⟨"1", "u", "L1", none, "X_2024-01-01", "item xd", 1, 200, 0, none⟩

def exColLog2 : RequestLog :=
  ⟨"2", "u", "L1", none, "X", "item x", 1, 100, 0, some "2024-01-01_none"⟩

/-- C2 counterexample: the source keys groups by the string
itemId ++ "_" ++ (date or "none"), which is not an injective encoding of the
composite key. The two logs (itemId "X_2024-01-01", no date) and (itemId "X",
date "2024-01-01_none") have distinct composite keys, both resolve against the
catalog, yet the code merges them into a single row, so the output is not in
bijection with the distinct composite keys as the claim states. -/
theorem c2_counterexample :
    ¬ ((aggregateLogs cmp0 [exColLog1, exColLog2] [exColItemA, exColItemB]).map rowPair).Perm
      ((([exColLog1, exColLog2].filter (resolvable [exColItemA, exColItemB])).map
        pairKey).dedup) := by
  intro h
  have h1 := h.length_eq
  rw [List.length_map] at h1
  unfold aggregateLogs at h1
  rw [(List.mergeSort_perm _ _).length_eq] at h1
  revert h1
  decide

theorem breakdownSpec_keys (ps : List (String × Int)) :
    (breakdownSpec ps).map Prod.fst = dedupFirst (ps.map Prod.fst) := by
  unfold breakdownSpec
  rw [List.map_map]
  exact List.map_id' _

/-- C7: within each aggregation row, the per-line breakdown and the
per-equipment-code breakdown over the logs of the group that produced the row
are deduplicated by key with quantities summed and listed in order of first
encounter (breakdownSpec), the equipment breakdown is taken from eqPairs, which
drops every log without a truthy equipment code, and the keys of both
breakdowns are free of duplicates. -/
theorem c7_breakdowns (cmp : String → String → Ordering) (logs : List RequestLog)
    (items : List ConsumableItem) (r : AggregatedItem)
    (hr : r ∈ aggregateLogs cmp logs items) :
    ∃ g : List RequestLog, g.Sublist logs ∧ g ≠ [] ∧
      r.requestsByLine = breakdownSpec (linePairs g) ∧
      (r.requestsByLine.map Prod.fst).Nodup ∧
      r.requestsByEquipment = breakdownSpec (eqPairs g) ∧
      (r.requestsByEquipment.map Prod.fst).Nodup := by
  obtain ⟨k, hk⟩ := (mem_aggregateLogs cmp logs items r).1 hr
  have hinv := (buildMap_inv items logs).2 k r hk
  obtain ⟨⟨h0, t, hg, -, -⟩, -, -, hbl, hbe⟩ := mkEntry_spec items _ r hinv
  refine ⟨groupOf items logs k, ?_, ?_, hbl, ?_, hbe, ?_⟩
  · exact (List.dropWhile_sublist _).trans (List.filter_sublist _)
  · rw [hg]
    exact List.cons_ne_nil _ _
  · rw [hbl, breakdownSpec_keys]
    exact nodup_dedupFirst _
  · rw [hbe, breakdownSpec_keys]
    exact nodup_dedupFirst _

def exC7Row : AggregatedItem := ⟨exC2Item, none, 2, 200, [("Press1", 2)], []⟩

theorem c7_breakdowns_witness :
    ∃ g : List RequestLog, g.Sublist [exC2Log] ∧ g ≠ [] ∧
      exC7Row.requestsByLine = breakdownSpec (linePairs g) ∧
      (exC7Row.requestsByLine.map Prod.fst).Nodup ∧
      exC7Row.requestsByEquipment = breakdownSpec (eqPairs g) ∧
      (exC7Row.requestsByEquipment.map Prod.fst).Nodup := by
  refine c7_breakdowns cmp0 [exC2Log] [exC2Item] exC7Row ?_
  have hb : (buildMap [exC2Log] [exC2Item]).map Prod.snd = [exC7Row] := rfl
  unfold aggregateLogs
  rw [hb, List.mergeSort_singleton]
  exact List.mem_cons_self _ _

theorem sum_filter_split {α : Type} (ls : List α) (p : α → Bool) (f : α → Int) :
    ((ls.filter p).map f).sum + ((ls.filter (fun x => !(p x))).map f).sum = (ls.map f).sum := by
  induction ls with
  | nil => rfl
  | cons a ls ih =>
    cases hp : p a <;> simp [List.filter_cons, hp] <;> omega

theorem sum_partition {α : Type} (key : α → String) (f : α → Int) :
    ∀ (ks : List String) (ls : List α), ks.Nodup → (∀ x ∈ ls, key x ∈ ks) →
      (ks.map (fun k => ((ls.filter (fun x => key x == k)).map f).sum)).sum =
        (ls.map f).sum := by
  intro ks
  induction ks with
  | nil =>
    intro ls _ hmem
    cases ls with
    | nil => rfl
    | cons a ls => exact absurd (hmem a (List.mem_cons_self a ls)) (List.not_mem_nil _)
  | cons k ks ih =>
    intro ls hnd hmem
    rw [List.map_cons, List.sum_cons]
    have hndk := (List.nodup_cons.1 hnd).1
    have hnd' := (List.nodup_cons.1 hnd).2
    rw [← sum_filter_split ls (fun x => key x == k) f]
    congr 1
    rw [← ih (ls.filter (fun x => !(key x == k))) hnd' ?hm]
    case hm =>
      intro x hx
      have hxk : ¬(key x == k) = true := by
        have := List.of_mem_filter hx
        simpa using this
      have hin := hmem x (List.mem_of_mem_filter hx)
      rcases List.mem_cons.1 hin with h | h
      · exact absurd (by simpa using h) hxk
      · exact h
    refine congrArg List.sum (List.map_congr_left ?_)
    intro k2 hk2
    rw [List.filter_filter]
    refine congrArg (fun t => (List.map f t).sum) (List.filter_congr ?_)
    intro x hx
    have hk2k : k2 ≠ k := by
      intro h
      exact hndk (h ▸ hk2)
    cases hxx : (key x == k2) with
    | false => simp [hxx]
    | true =>
      have hxk2 : key x = k2 := by simpa using hxx
      simp [hxx, hxk2, hk2k]

theorem dropWhile_of_all_false {α : Type} (p : α → Bool) :
    ∀ ls : List α, (∀ x ∈ ls, p x = false) → ls.dropWhile p = ls := by
  intro ls h
  cases ls with
  | nil => rfl
  | cons a ls =>
    rw [List.dropWhile_cons, if_neg (by rw [h a (List.mem_cons_self a ls)]; simp)]

theorem groupOf_all_resolvable (items : List ConsumableItem) (logs : List RequestLog)
    (k : String) (hres : ∀ l ∈ logs, resolvable items l = true) :
    groupOf items logs k = logs.filter (fun l => strKey l == k) := by
  unfold groupOf
  refine dropWhile_of_all_false _ _ ?_
  intro x hx
  rw [hres x (List.mem_of_mem_filter hx)]
  rfl

/-- C10: when every log resolves against the catalog, aggregation conserves
totals: the row quantities sum to the sum of the log quantities, the row costs
sum to the sum of the log costs, and within each row the per-line breakdown
quantities sum to the totalQuantity of the row. -/
theorem c10_conservation (cmp : String → String → Ordering) (logs : List RequestLog)
    (items : List ConsumableItem) (hres : ∀ l ∈ logs, resolvable items l = true) :
    ((aggregateLogs cmp logs items).map (fun r => r.totalQuantity)).sum =
      (logs.map (fun l => l.quantity)).sum ∧
    ((aggregateLogs cmp logs items).map (fun r => r.totalCost)).sum =
      (logs.map (fun l => l.totalCost)).sum ∧
    ∀ r ∈ aggregateLogs cmp logs items,
      (r.requestsByLine.map Prod.snd).sum = r.totalQuantity := by
  have hkeys := (buildMap_inv items logs).1
  have hfilter : logs.filter (resolvable items) = logs := by
    rw [List.filter_eq_self]
    intro a ha
    exact hres a ha
  rw [hfilter] at hkeys
  have hmain : ∀ f : RequestLog → Int,
      (((buildMap logs items).map Prod.snd).map
        (fun e => ((groupOf items logs (e.item.id ++ "_" ++
          dateOrNone e.desiredDeliveryDate)).map f).sum)).sum = (logs.map f).sum := by
    intro f
    have hstep : ((buildMap logs items).map Prod.snd).map
        (fun e => ((groupOf items logs (e.item.id ++ "_" ++
          dateOrNone e.desiredDeliveryDate)).map f).sum) =
        ((buildMap logs items).map Prod.fst).map
          (fun k => ((logs.filter (fun l => strKey l == k)).map f).sum) := by
      rw [List.map_map, List.map_map]
      refine List.map_congr_left ?_
      intro ke hke
      obtain ⟨k, e⟩ := ke
      have hk := entry_key items logs k e hke
      simp only [Function.comp]
      rw [← hk, groupOf_all_resolvable items logs k hres]
    rw [hstep, hkeys]
    exact sum_partition strKey f (dedupFirst (logs.map strKey)) logs (nodup_dedupFirst _)
      (fun x hx => (mem_dedupFirst _ _).2 (List.mem_map.2 ⟨x, hx, rfl⟩))
  have hperm : (aggregateLogs cmp logs items).Perm ((buildMap logs items).map Prod.snd) :=
    List.mergeSort_perm _ _
  refine ⟨?_, ?_, ?_⟩
  · rw [(hperm.map (fun r => r.totalQuantity)).sum_eq, ← hmain (fun l => l.quantity)]
    refine congrArg List.sum ?_
    rw [List.map_map, List.map_map]
    refine List.map_congr_left ?_
    intro ke hke
    obtain ⟨k, e⟩ := ke
    have hinv := (buildMap_inv items logs).2 k e hke
    obtain ⟨-, htq, -, -, -⟩ := mkEntry_spec items _ e hinv
    have hk := entry_key items logs k e hke
    simp only [Function.comp]
    rw [htq, ← hk]
  · rw [(hperm.map (fun r => r.totalCost)).sum_eq, ← hmain (fun l => l.totalCost)]
    refine congrArg List.sum ?_
    rw [List.map_map, List.map_map]
    refine List.map_congr_left ?_
    intro ke hke
    obtain ⟨k, e⟩ := ke
    have hinv := (buildMap_inv items logs).2 k e hke
    obtain ⟨-, -, htc, -, -⟩ := mkEntry_spec items _ e hinv
    have hk := entry_key items logs k e hke
    simp only [Function.comp]
    rw [htc, ← hk]
  · intro r hr
    obtain ⟨k, hk⟩ := (mem_aggregateLogs cmp logs items r).1 hr
    have hinv := (buildMap_inv items logs).2 k r hk
    obtain ⟨-, htq, -, hbl, -⟩ := mkEntry_spec items _ r hinv
    rw [hbl, htq]
    unfold breakdownSpec
    rw [List.map_map]
    have hsp := sum_partition (Prod.fst : String × Int → String) (Prod.snd)
      (dedupFirst ((linePairs (groupOf items logs k)).map Prod.fst))
      (linePairs (groupOf items logs k)) (nodup_dedupFirst _)
      (fun x hx => (mem_dedupFirst _ _).2 (List.mem_map.2 ⟨x, hx, rfl⟩))
    rw [show (Prod.snd ∘ fun k2 => (k2, sumQtyBy (linePairs (groupOf items logs k)) k2)) =
        (fun k2 => sumQtyBy (linePairs (groupOf items logs k)) k2) from rfl]
    unfold sumQtyBy
    rw [hsp]
    rw [show (linePairs (groupOf items logs k)).map Prod.snd =
      (groupOf items logs k).map (fun l => l.quantity) from by
        unfold linePairs; rw [List.map_map]; rfl]

theorem c10_conservation_witness :
    ((aggregateLogs cmp0 [exC2Log] [exC2Item]).map (fun r => r.totalQuantity)).sum =
      ([exC2Log].map (fun l => l.quantity)).sum ∧
    ((aggregateLogs cmp0 [exC2Log] [exC2Item]).map (fun r => r.totalCost)).sum =
      ([exC2Log].map (fun l => l.totalCost)).sum ∧
    ∀ r ∈ aggregateLogs cmp0 [exC2Log] [exC2Item],
      (r.requestsByLine.map Prod.snd).sum = r.totalQuantity :=
  c10_conservation cmp0 [exC2Log] [exC2Item] (by decide)

/-- Order described by the sorting claim: names ascending under the comparator;
for equal names a dated row may precede any row, an undated row only another
undated row; two dated rows are ordered by their date strings ascending. -/
def claimOrder (cmp : String → String → Ordering) (a b : AggregatedItem) : Prop :=
  cmp a.item.name b.item.name = Ordering.lt ∨
  (cmp a.item.name b.item.name = Ordering.eq ∧
    ((dateTruthy a.desiredDeliveryDate = true ∧ dateTruthy b.desiredDeliveryDate = true ∧
      cmp (a.desiredDeliveryDate.getD "") (b.desiredDeliveryDate.getD "") ≠ Ordering.gt) ∨
     (dateTruthy a.desiredDeliveryDate = true ∧ dateTruthy b.desiredDeliveryDate = false) ∨
     (dateTruthy a.desiredDeliveryDate = false ∧ dateTruthy b.desiredDeliveryDate = false)))

/-- Date part of the non-strict row order. -/
def dateLe (cmp : String → String → Ordering) (a b : AggregatedItem) : Prop :=
  if dateTruthy a.desiredDeliveryDate then
    (if dateTruthy b.desiredDeliveryDate then
      cmp (a.desiredDeliveryDate.getD "") (b.desiredDeliveryDate.getD "") ≠ Ordering.gt
     else True)
  else (if dateTruthy b.desiredDeliveryDate then False else True)

theorem rowLe_iff (cmp : String → String → Ordering) (a b : AggregatedItem) :
    rowLe cmp a b = true ↔ cmpRows cmp a b ≠ Ordering.gt := by
  unfold rowLe
  cases cmpRows cmp a b <;> simp

theorem cmpRows_ne_gt_iff (cmp : String → String → Ordering) (a b : AggregatedItem) :
    cmpRows cmp a b ≠ Ordering.gt ↔
      (cmp a.item.name b.item.name = Ordering.lt ∨
        (cmp a.item.name b.item.name = Ordering.eq ∧ dateLe cmp a b)) := by
  unfold cmpRows dateLe
  cases hn : cmp a.item.name b.item.name <;>
    cases da : dateTruthy a.desiredDeliveryDate <;>
    cases db : dateTruthy b.desiredDeliveryDate <;>
    simp [hn, da, db]

theorem rowLe_imp_claimOrder (cmp : String → String → Ordering) (a b : AggregatedItem)
    (h : rowLe cmp a b = true) : claimOrder cmp a b := by
  rw [rowLe_iff, cmpRows_ne_gt_iff] at h
  unfold claimOrder
  rcases h with h | ⟨h, hd⟩
  · exact Or.inl h
  · refine Or.inr ⟨h, ?_⟩
    unfold dateLe at hd
    cases da : dateTruthy a.desiredDeliveryDate <;>
      cases db : dateTruthy b.desiredDeliveryDate <;> simp [da, db] at hd ⊢
    exact hd

theorem cmpRows_swap (cmp : String → String → Ordering)
    (hsym : ∀ x y, cmp x y = (cmp y x).swap) (a b : AggregatedItem) :
    cmpRows cmp a b = (cmpRows cmp b a).swap := by
  unfold cmpRows
  rw [hsym a.item.name b.item.name, hsym (a.desiredDeliveryDate.getD "")
    (b.desiredDeliveryDate.getD "")]
  cases hn : cmp b.item.name a.item.name <;>
    cases da : dateTruthy a.desiredDeliveryDate <;>
    cases db : dateTruthy b.desiredDeliveryDate <;>
    simp [Ordering.swap, hn, da, db]

theorem rowLe_total (cmp : String → String → Ordering)
    (hsym : ∀ x y, cmp x y = (cmp y x).swap) (a b : AggregatedItem) :
    (rowLe cmp a b || rowLe cmp b a) = true := by
  unfold rowLe
  rw [cmpRows_swap cmp hsym a b]
  cases cmpRows cmp b a <;> rfl

theorem rowLe_trans (cmp : String → String → Ordering)
    (hsym : ∀ x y, cmp x y = (cmp y x).swap)
    (htr : ∀ x y z, cmp x y ≠ Ordering.gt → cmp y z ≠ Ordering.gt → cmp x z ≠ Ordering.gt)
    (heqc : ∀ x y z, cmp x y = Ordering.eq → cmp x z = cmp y z)
    (a b c : AggregatedItem) (hab : rowLe cmp a b = true) (hbc : rowLe cmp b c = true) :
    rowLe cmp a c = true := by
  rw [rowLe_iff, cmpRows_ne_gt_iff] at hab hbc ⊢
  have hlt_ne : ∀ x y : String, cmp x y = Ordering.lt → cmp x y ≠ Ordering.gt := by
    intro x y h
    rw [h]
    exact fun hh => Ordering.noConfusion hh
  have heq_ne : ∀ x y : String, cmp x y = Ordering.eq → cmp x y ≠ Ordering.gt := by
    intro x y h
    rw [h]
    exact fun hh => Ordering.noConfusion hh
  rcases hab with h1 | ⟨h1, d1⟩ <;> rcases hbc with h2 | ⟨h2, d2⟩
  · have hac : cmp a.item.name c.item.name ≠ Ordering.gt :=
      htr _ _ _ (hlt_ne _ _ h1) (hlt_ne _ _ h2)
    cases hc : cmp a.item.name c.item.name with
    | gt => exact absurd hc hac
    | lt => exact Or.inl rfl
    | eq =>
      exfalso
      have := heqc a.item.name c.item.name b.item.name hc
      rw [h1] at this
      have hcb : cmp c.item.name b.item.name = (cmp b.item.name c.item.name).swap :=
        hsym _ _
      rw [h2] at hcb
      rw [hcb] at this
      exact Ordering.noConfusion this
  · have hac : cmp a.item.name c.item.name ≠ Ordering.gt :=
      htr _ _ _ (hlt_ne _ _ h1) (heq_ne _ _ h2)
    cases hc : cmp a.item.name c.item.name with
    | gt => exact absurd hc hac
    | lt => exact Or.inl rfl
    | eq =>
      exfalso
      have := heqc a.item.name c.item.name b.item.name hc
      rw [h1] at this
      have hcb : cmp c.item.name b.item.name = (cmp b.item.name c.item.name).swap :=
        hsym _ _
      rw [h2] at hcb
      rw [hcb] at this
      exact Ordering.noConfusion this
  · have := heqc a.item.name b.item.name c.item.name h1
    rw [h2] at this
    exact Or.inl this
  · have := heqc a.item.name b.item.name c.item.name h1
    rw [h2] at this
    refine Or.inr ⟨this, ?_⟩
    unfold dateLe at d1 d2 ⊢
    cases da : dateTruthy a.desiredDeliveryDate <;>
      cases db : dateTruthy b.desiredDeliveryDate <;>
      cases dc : dateTruthy c.desiredDeliveryDate <;>
      simp [da, db, dc] at d1 d2 ⊢
    exact htr _ _ _ d1 d2

/-- C1: under the hypotheses that the abstract locale comparator is
orientation-symmetric, transitive on its non-strict order, and congruent on
equal elements, the output of aggregateLogs is pairwise ordered by the order
the claim describes: item name ascending; for name ties a row with a truthy
delivery date sorts before one without, and two dated rows are ordered by date
ascending under the same comparator. -/
theorem c1_sorted (cmp : String → String → Ordering)
    (hsym : ∀ x y, cmp x y = (cmp y x).swap)
    (htr : ∀ x y z, cmp x y ≠ Ordering.gt → cmp y z ≠ Ordering.gt → cmp x z ≠ Ordering.gt)
    (heqc : ∀ x y z, cmp x y = Ordering.eq → cmp x z = cmp y z)
    (logs : List RequestLog) (items : List ConsumableItem) :
    (aggregateLogs cmp logs items).Pairwise (claimOrder cmp) := by
  unfold aggregateLogs
  have hs := @List.sorted_mergeSort _ (rowLe cmp)
    (rowLe_trans cmp hsym htr heqc) (rowLe_total cmp hsym)
    ((buildMap logs items).map Prod.snd)
  exact hs.imp (fun h => rowLe_imp_claimOrder cmp _ _ h)

theorem c1_sorted_witness :
    (aggregateLogs cmp0 [exC2Log] [exC2Item]).Pairwise (claimOrder cmp0) :=
  c1_sorted cmp0 (fun _ _ => rfl)
    (fun _ _ _ _ _ h => Ordering.noConfusion h)
    (fun _ _ _ _ => rfl) [exC2Log] [exC2Item]

/-! ## Request submission, from handleRequestSubmit in src/App.tsx together with
the guard of handleSubmit in src/components/RequestForm.tsx, and the log id of
the in-memory App variant. An empty equipment code or delivery date string is
stored as absent (the || null and || undefined conversions of the source). -/

def MOCK_USER_ID : String := "user-12345"

def mkLog (line equipmentCode desiredDate : String) (ts : Int) (i : Nat)
    (c : ConsumableItem × Int) : RequestLog :=
  { id := toString ts ++ "-" ++ c.1.id ++ "-" ++ toString i
    requesterId := MOCK_USER_ID
    line := line
    equipmentCode := if equipmentCode = "" then none else some equipmentCode
    itemId := c.1.id
    itemName := c.1.name
    quantity := c.2
    totalCost := c.1.price * c.2
    timestamp := ts
    desiredDeliveryDate := if desiredDate = "" then none else some desiredDate }

/-- Model of a submission: the RequestForm guard (nonempty cart and a selected
line) followed by handleRequestSubmit, which builds one log per cart entry and
prepends the batch to the store. -/
def handleRequestSubmit (store : List RequestLog) (cart : List (ConsumableItem × Int))
    (line equipmentCode desiredDate : String) (ts : Int) : List RequestLog :=
  if 0 < cart.length ∧ line ≠ "" then
    (cart.mapIdx (fun i c => mkLog line equipmentCode desiredDate ts i c)) ++ store
  else store

/-- C4: a submission with a nonempty cart and a selected line produces exactly
one log per cart entry, prepended as a batch to the store; the logs share the
timestamp, line, equipment code, delivery date and requester, and the log at
each index carries the itemId, denormalized itemName, quantity and
totalCost = price * quantity of the cart entry at that index. A submission with
an empty cart or no selected line leaves the store unchanged. -/
theorem c4_submission (store : List RequestLog) (cart : List (ConsumableItem × Int))
    (line equipmentCode desiredDate : String) (ts : Int) :
    (0 < cart.length → line ≠ "" →
      handleRequestSubmit store cart line equipmentCode desiredDate ts =
        (cart.mapIdx (fun i c => mkLog line equipmentCode desiredDate ts i c)) ++ store ∧
      (cart.mapIdx (fun i c => mkLog line equipmentCode desiredDate ts i c)).length =
        cart.length ∧
      (∀ lg ∈ cart.mapIdx (fun i c => mkLog line equipmentCode desiredDate ts i c),
        lg.timestamp = ts ∧ lg.line = line ∧ lg.requesterId = MOCK_USER_ID ∧
        lg.equipmentCode = (if equipmentCode = "" then none else some equipmentCode) ∧
        lg.desiredDeliveryDate = (if desiredDate = "" then none else some desiredDate)) ∧
      (∀ i : Nat,
        ((cart.mapIdx (fun i c => mkLog line equipmentCode desiredDate ts i c))[i]?).map
            (fun lg => (lg.itemId, lg.itemName, lg.quantity, lg.totalCost)) =
          (cart[i]?).map (fun c => (c.1.id, c.1.name, c.2, c.1.price * c.2)))) ∧
    ((cart = [] ∨ line = "") →
      handleRequestSubmit store cart line equipmentCode desiredDate ts = store) := by
  constructor
  · intro hc hl
    refine ⟨?_, List.length_mapIdx, ?_, ?_⟩
    · unfold handleRequestSubmit
      rw [if_pos ⟨hc, hl⟩]
    · intro lg hlg
      obtain ⟨i, hi, hlgeq⟩ := List.mem_mapIdx.1 hlg
      rw [← hlgeq]
      exact ⟨rfl, rfl, rfl, rfl, rfl⟩
    · intro i
      rw [List.getElem?_mapIdx]
      cases cart[i]? with
      | none => rfl
      | some c => rfl
  · intro h
    unfold handleRequestSubmit
    rcases h with h | h
    · rw [if_neg (by simp [h])]
    · rw [if_neg (by simp [h])]

theorem c4_submission_witness :
    (handleRequestSubmit [] [(exC2Item, 2)] "Press1" "" "" 1000 =
      ([(exC2Item, 2)].mapIdx (fun i c => mkLog "Press1" "" "" 1000 i c)) ++ []) ∧
    handleRequestSubmit [] [] "Press1" "" "" 1000 = [] :=
  ⟨((c4_submission [] [(exC2Item, 2)] "Press1" "" "" 1000).1 (by decide) (by decide)).1,
   (c4_submission [] [] "Press1" "" "" 1000).2 (Or.inl rfl)⟩

/-! ## Quantity edit, from handleUpdateLogQuantity in src/App.tsx: reject a
non-positive quantity, look the log up by id, take the unit price from the
catalog or, if the item is gone, derive it as totalCost / quantity, then update
quantity and totalCost of every log with that id and nothing else. -/

def handleUpdateLogQuantity (masterItems : List ConsumableItem) (logs : List RequestLog)
    (logId : String) (newQuantity : Int) : List RequestLog :=
  if newQuantity ≤ 0 then logs
  else
    match logs.find? (fun l => l.id == logId) with
    | none => logs
    | some lg =>
      let unitPrice :=
        match findItem masterItems lg.itemId with
        | some it => it.price
        | none => lg.totalCost / lg.quantity
      logs.map (fun l => if l.id == logId then
        { l with quantity := newQuantity, totalCost := unitPrice * newQuantity } else l)

def exZItem : ConsumableItem := ⟨"Z0102-00035", "Sup", "Bearing", "spec", "EA", 520000⟩

/-- C6: totalCost is never edited independently. An edit with the item present
in the catalog rewrites the matching log to quantity q and
totalCost = price * q; every log in the updated store keeps the itemName,
itemId and all fields other than quantity and totalCost of a log of the old
store; when the item is missing the code falls back to the derived unit price
totalCost / quantity, which under the invariant totalCost = p * quantity with
quantity nonzero again yields totalCost = p * q; and in the concrete scenario
of the specification (item Z0102-00035 priced 520000, quantity 2 on line
Press1, edited to 3) totalCost moves from 1040000 to 1560000 with
itemName and itemId unchanged. -/
theorem c6_totalCost_invariant :
    (∀ (items : List ConsumableItem) (logs : List RequestLog) (logId : String) (q : Int)
        (lg : RequestLog) (it : ConsumableItem),
      logs.find? (fun l => l.id == logId) = some lg →
      findItem items lg.itemId = some it →
      0 < q →
      handleUpdateLogQuantity items logs logId q =
        logs.map (fun l => if l.id == logId then
          { l with quantity := q, totalCost := it.price * q } else l)) ∧
    (∀ (items : List ConsumableItem) (logs : List RequestLog) (logId : String) (q : Int),
      ∀ l2 ∈ handleUpdateLogQuantity items logs logId q,
        ∃ l1, l1 ∈ logs ∧ l2.id = l1.id ∧ l2.itemId = l1.itemId ∧ l2.itemName = l1.itemName ∧
          l2.line = l1.line ∧ l2.equipmentCode = l1.equipmentCode ∧
          l2.timestamp = l1.timestamp ∧ l2.desiredDeliveryDate = l1.desiredDeliveryDate ∧
          l2.requesterId = l1.requesterId) ∧
    (∀ (items : List ConsumableItem) (logs : List RequestLog) (logId : String) (q p : Int)
        (lg : RequestLog),
      logs.find? (fun l => l.id == logId) = some lg →
      findItem items lg.itemId = none →
      lg.totalCost = p * lg.quantity → lg.quantity ≠ 0 → 0 < q →
      handleUpdateLogQuantity items logs logId q =
        logs.map (fun l => if l.id == logId then
          { l with quantity := q, totalCost := p * q } else l)) ∧
    (∃ lg, handleRequestSubmit [] [(exZItem, 2)] "Press1" "" "" 1000 = [lg] ∧
      lg.totalCost = 1040000 ∧ lg.itemName = "Bearing" ∧ lg.itemId = "Z0102-00035" ∧
      ∀ lg2 ∈ handleUpdateLogQuantity [exZItem]
          (handleRequestSubmit [] [(exZItem, 2)] "Press1" "" "" 1000) lg.id 3,
        lg2.totalCost = 1560000 ∧ lg2.itemName = lg.itemName ∧ lg2.itemId = lg.itemId) := by
  refine ⟨?_, ?_, ?_, ?_⟩
  · intro items logs logId q lg it hfind hitem hq
    unfold handleUpdateLogQuantity
    rw [if_neg (by omega), hfind]
    simp only [hitem]
  · intro items logs logId q l2 h2
    unfold handleUpdateLogQuantity at h2
    by_cases hq : q ≤ 0
    · rw [if_pos hq] at h2
      exact ⟨l2, h2, rfl, rfl, rfl, rfl, rfl, rfl, rfl, rfl⟩
    · rw [if_neg hq] at h2
      cases hf : logs.find? (fun l => l.id == logId) with
      | none =>
        rw [hf] at h2
        exact ⟨l2, h2, rfl, rfl, rfl, rfl, rfl, rfl, rfl, rfl⟩
      | some lg =>
        rw [hf] at h2
        obtain ⟨l1, hl1, hl2⟩ := List.mem_map.1 h2
        refine ⟨l1, hl1, ?_⟩
        rw [← hl2]
        by_cases hid : (l1.id == logId) = true
        · rw [if_pos hid]
          exact ⟨rfl, rfl, rfl, rfl, rfl, rfl, rfl, rfl⟩
        · rw [if_neg hid]
          exact ⟨rfl, rfl, rfl, rfl, rfl, rfl, rfl, rfl⟩
  · intro items logs logId q p lg hfind hitem hcost hqz hq
    unfold handleUpdateLogQuantity
    rw [if_neg (by omega), hfind]
    simp only [hitem]
    have hp : lg.totalCost / lg.quantity = p := by
      rw [hcost]
      exact Int.mul_ediv_cancel p hqz
    rw [hp]
  · refine ⟨mkLog "Press1" "" "" 1000 0 (exZItem, 2), by decide, by decide, by decide,
      by decide, ?_⟩
    intro lg2 h2
    have hres : handleUpdateLogQuantity [exZItem]
        (handleRequestSubmit [] [(exZItem, 2)] "Press1" "" "" 1000)
        (mkLog "Press1" "" "" 1000 0 (exZItem, 2)).id 3 =
        [{ mkLog "Press1" "" "" 1000 0 (exZItem, 2) with
            quantity := 3, totalCost := 1560000 }] := by decide
    rw [hres] at h2
    have h3 := List.mem_singleton.1 h2
    subst h3
    exact ⟨rfl, rfl, rfl⟩

theorem c6_totalCost_invariant_witness :
    handleUpdateLogQuantity [exZItem] [mkLog "Press1" "" "" 1000 0 (exZItem, 2)]
      (mkLog "Press1" "" "" 1000 0 (exZItem, 2)).id 3 =
      [mkLog "Press1" "" "" 1000 0 (exZItem, 2)].map (fun l =>
        if l.id == (mkLog "Press1" "" "" 1000 0 (exZItem, 2)).id then
          { l with quantity := 3, totalCost := exZItem.price * 3 } else l) :=
  c6_totalCost_invariant.1 [exZItem] [mkLog "Press1" "" "" 1000 0 (exZItem, 2)]
    (mkLog "Press1" "" "" 1000 0 (exZItem, 2)).id 3
    (mkLog "Press1" "" "" 1000 0 (exZItem, 2)) exZItem (by decide) (by decide) (by decide)

/-! ## Manual catalog add, from handleAddItem in src/unnamed/part_005: a
case-insensitive duplicate id is rejected with an error message and the catalog
is unchanged; a fresh id is prepended and no error is returned. The JS
toLowerCase call is modelled as a character-wise lowering of the string. -/

def lowerStr (s : String) : String := String.mk (s.data.map Char.toLower)

def DUP_SKU_ERROR : String :=
  "오류: 동일한 품번(SKU)이 이미 존재합니다. 다른 품번을 사용해주세요."

def handleAddItem (masterItems : List ConsumableItem) (newItem : ConsumableItem) :
    Option String × List ConsumableItem :=
  if masterItems.any (fun item => lowerStr item.id == lowerStr newItem.id) then
    (some DUP_SKU_ERROR, masterItems)
  else
    (none, newItem :: masterItems)

/-- C9: adding an item whose id matches an existing id case-insensitively is
rejected with the duplicate-key error message and the catalog is left
unchanged; adding an item whose lowercased id matches no existing entry
returns no error (and the item enters the catalog). -/
theorem c9_addItem (items : List ConsumableItem) (newItem : ConsumableItem) :
    ((∃ it ∈ items, lowerStr it.id = lowerStr newItem.id) →
      handleAddItem items newItem = (some DUP_SKU_ERROR, items)) ∧
    ((∀ it ∈ items, lowerStr it.id ≠ lowerStr newItem.id) →
      handleAddItem items newItem = (none, newItem :: items)) := by
  constructor
  · intro ⟨it, hmem, heq⟩
    have hany : (items.any fun item => lowerStr item.id == lowerStr newItem.id) = true :=
      List.any_eq_true.2 ⟨it, hmem, beq_iff_eq.2 heq⟩
    unfold handleAddItem
    rw [if_pos hany]
  · intro h
    unfold handleAddItem
    rw [if_neg]
    intro hany
    obtain ⟨it, hmem, heq⟩ := List.any_eq_true.1 hany
    exact h it hmem (beq_iff_eq.1 heq)

theorem c9_addItem_witness :
    (handleAddItem [exZItem] ⟨"z0102-00035", "S2", "Other", "sp", "EA", 1⟩ =
      (some DUP_SKU_ERROR, [exZItem])) ∧
    (handleAddItem [exZItem] ⟨"NEW-1", "S2", "Other", "sp", "EA", 1⟩ =
      (none, ⟨"NEW-1", "S2", "Other", "sp", "EA", 1⟩ :: [exZItem])) :=
  ⟨(c9_addItem [exZItem] ⟨"z0102-00035", "S2", "Other", "sp", "EA", 1⟩).1
      ⟨exZItem, by decide, by decide⟩,
   (c9_addItem [exZItem] ⟨"NEW-1", "S2", "Other", "sp", "EA", 1⟩).2 (by decide)⟩

/-! ## CSV catalog import, from handleFileChange in src/unnamed/part_005. A
split row is accepted when it has at least 6 columns, its id and name fields
are truthy (nonempty) and parseFloat applied to the comma-stripped price field
is not NaN. parseFloat is not NaN exactly when, after leading whitespace and an
optional sign, the text starts with a digit, a dot followed by a digit, or the
literal Infinity; only this acceptance predicate is modelled, not the numeric
value. The imported catalog is modelled as the list of accepted rows. -/

def stripCommas (s : String) : String := String.mk (s.data.filter (fun c => c ≠ ','))

def litPre : List Char → List Char → Bool
  | [], _ => true
  | _ :: _, [] => false
  | a :: as, b :: bs => a == b && litPre as bs

def afterSign (l : List Char) : List Char :=
  match l with
  | c :: t => if c = '+' ∨ c = '-' then t else c :: t
  | [] => []

def startsNumber (l : List Char) : Bool :=
  match l with
  | c :: t =>
      c.isDigit ||
      (c == '.' && (match t with | d :: _ => d.isDigit | [] => false)) ||
      litPre "Infinity".data (c :: t)
  | [] => false

def acceptsFloat (s : String) : Bool :=
  startsNumber (afterSign (s.data.dropWhile (fun c => c.isWhitespace)))

def isInfinityLit (s : String) : Bool :=
  litPre "Infinity".data (afterSign (s.data.dropWhile (fun c => c.isWhitespace)))

def rowAccepted (cols : List String) : Bool :=
  match cols with
  | id :: _supplier :: name :: _specification :: _unit :: priceStr :: _rest =>
      (id ≠ "" : Bool) && (name ≠ "" : Bool) && acceptsFloat (stripCommas priceStr)
  | _ => false

def importRows (rows : List (List String)) : List (List String) :=
  rows.foldl (fun acc cols => if rowAccepted cols then acc ++ [cols] else acc) []

def specRowFinite (cols : List String) : Bool :=
  match cols with
  | id :: _supplier :: name :: _specification :: _unit :: priceStr :: _rest =>
      (id ≠ "" : Bool) && (name ≠ "" : Bool) && acceptsFloat (stripCommas priceStr) &&
        !isInfinityLit (stripCommas priceStr)
  | _ => false

theorem importRows_foldl (rows : List (List String)) (acc : List (List String)) :
    rows.foldl (fun acc cols => if rowAccepted cols then acc ++ [cols] else acc) acc =
      acc ++ rows.filter rowAccepted := by
  induction rows generalizing acc with
  | nil => simp
  | cons r t ih =>
    simp only [List.foldl_cons, List.filter_cons]
    cases hr : rowAccepted r with
    | false => simp [hr, ih]
    | true => simp [hr, ih]

/-- C5: every split row is accepted into the imported catalog if and only if it
has at least 6 columns with a nonempty id field, a nonempty name field and a
comma-stripped price field on which parseFloat does not yield NaN; rejected
rows are skipped (filtered out) without aborting the import of the remaining
rows. The acceptance differs from the finite-number acceptance of the
specification exactly on prices whose parse prefix is the Infinity literal. -/
theorem c5_import :
    (∀ rows : List (List String), importRows rows = rows.filter rowAccepted) ∧
    (∀ cols : List String, rowAccepted cols = true ↔
      ∃ id supplier name specification unit priceStr rest,
        cols = id :: supplier :: name :: specification :: unit :: priceStr :: rest ∧
        id ≠ "" ∧ name ≠ "" ∧ acceptsFloat (stripCommas priceStr) = true) := by
  constructor
  · intro rows
    unfold importRows
    rw [importRows_foldl, List.nil_append]
  · intro cols
    constructor
    · intro h
      match cols with
      | id :: supplier :: name :: specification :: unit :: priceStr :: rest =>
        unfold rowAccepted at h
        simp only [Bool.and_eq_true, decide_eq_true_eq] at h
        exact ⟨id, supplier, name, specification, unit, priceStr, rest, rfl,
          h.1.1, h.1.2, h.2⟩
    · intro ⟨id, supplier, name, specification, unit, priceStr, rest, hcols, hid, hname, hpr⟩
      subst hcols
      unfold rowAccepted
      simp only [Bool.and_eq_true, decide_eq_true_eq]
      exact ⟨⟨hid, hname⟩, hpr⟩

theorem c5_counterexample :
    rowAccepted ["X", "S", "N", "SP", "EA", "Infinity"] = true ∧
    specRowFinite ["X", "S", "N", "SP", "EA", "Infinity"] = false ∧
    importRows [["X", "S", "N", "SP", "EA", "Infinity"]] =
      [["X", "S", "N", "SP", "EA", "Infinity"]] := by
  refine ⟨by decide, by decide, ?_⟩
  unfold importRows
  rw [importRows_foldl]
  decide

theorem c5_import_witness :
    rowAccepted ["X", "S", "N", "SP", "EA", "12.5"] = true :=
  (c5_import.2 ["X", "S", "N", "SP", "EA", "12.5"]).2
    ⟨"X", "S", "N", "SP", "EA", "12.5", [], rfl, by decide, by decide, by decide⟩

/-! ## CSV export, from handleDownload in src/components/AdminDashboard.tsx.
The emitted text is modelled as Option String: none when the aggregation list
is empty (the function returns without emitting). The supplier, name,
specification and unit fields are quote wrapped with internal quotes doubled;
the two breakdown fields are quote wrapped without doubling; the item id,
price, delivery date, quantity and cost fields are emitted raw. -/

def escQuotes (s : String) : String :=
  String.mk (s.data.foldr (fun c acc => if c = '\"' then '\"' :: '\"' :: acc else c :: acc) [])

def csvEsc (s : String) : String := "\"" ++ escQuotes s ++ "\""

def wrapQ (s : String) : String := "\"" ++ s ++ "\""

def joinSep (sep : String) : List String → String
  | [] => ""
  | [s] => s
  | s :: t => s ++ sep ++ joinSep sep t

def breakdownText (ps : List (String × Int)) : String :=
  joinSep "; " (ps.map (fun p => p.1 ++ "(" ++ toString p.2 ++ ")"))

def headerFields : List String :=
  ["품번", "업체명", "품명", "규격", "단위", "단가", "희망 납기일", "총 필요수량",
   "총 금액", "요청 라인별 수량", "설비코드별 수량"]

def rowValues (r : AggregatedItem) : List String :=
  [r.item.id, r.item.supplier, r.item.name, r.item.specification, r.item.unit,
   toString r.item.price, r.desiredDeliveryDate.getD "", toString r.totalQuantity,
   toString r.totalCost, breakdownText r.requestsByLine,
   breakdownText r.requestsByEquipment]

def rowFields (r : AggregatedItem) : List String :=
  [r.item.id, csvEsc r.item.supplier, csvEsc r.item.name, csvEsc r.item.specification,
   csvEsc r.item.unit, toString r.item.price, r.desiredDeliveryDate.getD "",
   toString r.totalQuantity, toString r.totalCost,
   wrapQ (breakdownText r.requestsByLine), wrapQ (breakdownText r.requestsByEquipment)]

def handleDownload (data : List AggregatedItem) : Option String :=
  if data.length = 0 then none
  else some (joinSep "\n" (joinSep "," headerFields ::
    data.map (fun r => joinSep "," (rowFields r))))

def escAt (i : Nat) (v : String) : String :=
  if 1 ≤ i ∧ i ≤ 4 then csvEsc v else if 9 ≤ i then wrapQ v else v

def hazardous (s : String) : Bool := s.data.any (fun c => c = ',' ∨ c = '\"')

def countNL (s : String) : Nat := s.data.count '\n'

def exC8Row : AggregatedItem :=
  ⟨⟨"A,B", "S", "N", "SP", "EA", 10⟩, none, 1, 10, [("L", 1)], []⟩

def exC8Row2 : AggregatedItem :=
  ⟨⟨"A", "S", "N", "SP", "EA", 10⟩, none, 1, 10, [("L\"x", 1)], []⟩

theorem countNL_append (a b : String) : countNL (a ++ b) = countNL a + countNL b := by
  simp [countNL, String.data_append, List.count_append]

theorem countNL_joinSep (sep : String) (l : List String) :
    countNL (joinSep sep l) = (l.map countNL).sum + countNL sep * (l.length - 1) := by
  induction l with
  | nil => simp [joinSep, countNL]
  | cons s t ih =>
    cases t with
    | nil => simp [joinSep]
    | cons b bs =>
      rw [show joinSep sep (s :: b :: bs) = s ++ sep ++ joinSep sep (b :: bs) from rfl]
      rw [countNL_append, countNL_append, ih]
      simp only [List.map_cons, List.sum_cons, List.length_cons, Nat.add_sub_cancel]
      ring

/-- C8: the export emits nothing exactly when the aggregation list is empty;
the emitted fields follow a position-dependent escape policy relative to the
raw values: positions 1 to 4 (supplier, name, specification, unit) are quote
wrapped with internal quotes doubled, positions 9 and 10 (the breakdowns) are
quote wrapped without doubling, all other positions (including the item id and
the delivery date) are raw; and when no field contains a newline, the emitted
newline count is exactly the number of aggregation rows (one header line plus
one line per row). -/
theorem c8_export :
    (∀ data : List AggregatedItem, handleDownload data = none ↔ data = []) ∧
    (∀ r : AggregatedItem, ∀ i : Nat,
      (rowFields r).get? i = ((rowValues r).get? i).map (escAt i)) ∧
    (∀ (data : List AggregatedItem) (out : String), handleDownload data = some out →
      (∀ r ∈ data, ∀ f ∈ rowFields r, countNL f = 0) →
      countNL out = data.length) := by
  refine ⟨?_, ?_, ?_⟩
  · intro data
    cases data with
    | nil => simp [handleDownload]
    | cons r t => simp [handleDownload]
  · intro r i
    match i with
    | 0 => rfl
    | 1 => rfl
    | 2 => rfl
    | 3 => rfl
    | 4 => rfl
    | 5 => rfl
    | 6 => rfl
    | 7 => rfl
    | 8 => rfl
    | 9 => rfl
    | 10 => rfl
    | n + 11 => rfl
  · intro data out hout hfields
    unfold handleDownload at hout
    cases data with
    | nil => simp at hout
    | cons r t =>
      rw [if_neg (by simp)] at hout
      have hout2 := Option.some.inj hout
      have hrow : ∀ x ∈ r :: t, countNL (joinSep "," (rowFields x)) = 0 := by
        intro x hx
        rw [countNL_joinSep]
        have hz : ∀ f ∈ (rowFields x).map countNL, f = 0 := by
          intro f hf
          obtain ⟨g, hg, hgf⟩ := List.mem_map.1 hf
          rw [← hgf]
          exact hfields x hx g hg
        rw [List.sum_eq_zero hz]
        have hc : countNL "," = 0 := by decide
        rw [hc]
        simp
      have hsum : (List.map countNL (joinSep "," headerFields ::
          List.map (fun r => joinSep "," (rowFields r)) (r :: t))).sum = 0 := by
        apply List.sum_eq_zero
        intro f hf
        rw [List.map_cons] at hf
        rcases List.mem_cons.1 hf with h | h
        · rw [h]
          decide
        · obtain ⟨g, hg, hgf⟩ := List.mem_map.1 h
          obtain ⟨x, hx, hxg⟩ := List.mem_map.1 hg
          rw [← hgf, ← hxg]
          exact hrow x hx
      rw [← hout2, countNL_joinSep, hsum]
      have hn : countNL "\n" = 1 := by decide
      rw [hn]
      simp [List.length_map]

theorem c8_export_witness :
    countNL (joinSep "\n" (joinSep "," headerFields ::
      [exC8Row2].map (fun r => joinSep "," (rowFields r)))) = 1 :=
  c8_export.2.2 [exC8Row2]
    (joinSep "\n" (joinSep "," headerFields ::
      [exC8Row2].map (fun r => joinSep "," (rowFields r)))) rfl (by decide)

theorem c8_counterexample :
    (hazardous ((rowValues exC8Row).headI) = true ∧
      (rowFields exC8Row).headI ≠ csvEsc ((rowValues exC8Row).headI) ∧
      (rowFields exC8Row).headI = (rowValues exC8Row).headI) ∧
    (hazardous ((rowValues exC8Row2).getD 9 "") = true ∧
      (rowFields exC8Row2).getD 9 "" ≠ csvEsc ((rowValues exC8Row2).getD 9 "")) := by
  decide
